import Mathlib

/-!
Verification of the storage/key-schema layer of the `fj` nutrition-tracking
server (Rust sources under `src/server/src/`).

The development shallowly embeds the relevant parts of the source:

* `src/server/src/handlers/end_day.rs` — the day-rollover state machine
  (`end_day`, `get_current_date`): jiff civil-date arithmetic is embedded as
  `CivilDate`/`nextDay`/`endDayDate`; the raw find-and-replace rewrite of the
  serialized user record (`record.replace(date, &tomorrow)`) is embedded as
  `replaceAll` over character lists.
* `src/server/src/handlers/journal.rs` — `post_journal` / `get_journal`.
* `src/server/src/handlers/users.rs` — `register` / `get_users`.

The LMDB (heed) engine is embedded as a key-ordered association list
(`Store`), keys compared in lexicographic byte order (`keyLt`, ASCII keys, so
`Char` order agrees with byte order); `db.put` inside a write transaction
buffers pending writes that become visible only at `wtxn.commit()`.

Stored values are JSON texts produced by `serde_json::to_string` of the
`*DbRecord` structs; they are embedded at the JSON-object level (`JObj`), with
string fields carrying their escaped character content so that serde_json's
borrowed-`&str` semantics (a string with any escape sequence fails to
deserialize into `&'a str`) is captured faithfully.  The `f64` field `qty` is
modelled as `ℚ` (every finite double is a rational, and serde_json
round-trips finite doubles exactly; NaN/Inf are outside the model).
-/

/-! ### Calendar dates (jiff `civil::Date`)

`end_day` parses the stored `current_date` with `jiff::civil::Date::from_str`
and computes `current_date.add(27.hours())`.  jiff civil dates are
timezone-naive proleptic-Gregorian dates ranging from -9999-01-01 to
9999-12-31; adding a span with time units goes through midnight date-time
arithmetic, so `D + 27 hours` is exactly the following calendar day, and the
`Add` impl panics (`checked_add(...).expect(...)`) when the result is out of
range, which for `+27h` happens exactly at the maximal date 9999-12-31. -/

structure CivilDate where
  year : Int
  month : Nat
  day : Nat
deriving DecidableEq, Repr

/-- Proleptic Gregorian leap-year rule, as jiff implements it. -/
def isLeapYear (y : Int) : Bool :=
  y % 4 == 0 && (y % 100 != 0 || y % 400 == 0)

def daysInMonth (y : Int) (m : Nat) : Nat :=
  match m with
  | 1 => 31 | 3 => 31 | 5 => 31 | 7 => 31 | 8 => 31 | 10 => 31 | 12 => 31
  | 4 => 30 | 6 => 30 | 9 => 30 | 11 => 30
  | 2 => if isLeapYear y then 29 else 28
  | _ => 0

/-- The date range accepted by `jiff::civil::Date` (`-9999-01-01` to
`9999-12-31`), together with ordinary calendar validity. -/
def validDate (d : CivilDate) : Bool :=
  decide (-9999 ≤ d.year) && decide (d.year ≤ 9999) &&
  decide (1 ≤ d.month) && decide (d.month ≤ 12) &&
  decide (1 ≤ d.day) && decide (d.day ≤ daysInMonth d.year d.month)

/-- The calendar day after `d` (no range clamping). -/
def nextDay (d : CivilDate) : CivilDate :=
  if d.day < daysInMonth d.year d.month then
    { d with day := d.day + 1 }
  else if d.month < 12 then
    { year := d.year, month := d.month + 1, day := 1 }
  else
    { year := d.year + 1, month := 1, day := 1 }

/-- Strict calendar order on civil dates. -/
def dateLt (a b : CivilDate) : Prop :=
  a.year < b.year ∨
    (a.year = b.year ∧ (a.month < b.month ∨ (a.month = b.month ∧ a.day < b.day)))

instance : DecidablePred fun p : CivilDate × CivilDate => dateLt p.1 p.2 :=
  fun _ => by unfold dateLt; infer_instance

instance (a b : CivilDate) : Decidable (dateLt a b) := by
  unfold dateLt; infer_instance

/-- Embeds the date transition of `end_day`
(`end_day.rs`: `let tomorrow = current_date.add(27.hours())`): jiff computes
midnight-of-`d` plus 27 hours and takes the date part, i.e. the following
calendar day; the `Add` impl panics (`none`) when the result falls outside
jiff's representable range. -/
def endDayDate (d : CivilDate) : Option CivilDate :=
  if validDate (nextDay d) then some (nextDay d) else none

/-- `n` successive `end_day` rollovers starting from `d` (`none` as soon as
one of them panics). -/
def iterEndDay : Nat → CivilDate → Option CivilDate
  | 0, d => some d
  | n + 1, d => (endDayDate d).bind (iterEndDay n)

/-! ### Character-list utilities

Keys and serialized record texts are ASCII character lists, so `Char` order
coincides with LMDB's unsigned byte order on them. -/

/-- Character list of a string literal. -/
def lit (s : String) : List Char := s.data

/-- Decimal digit character. -/
def decDigit (n : Nat) : Char :=
  match n with
  | 0 => '0' | 1 => '1' | 2 => '2' | 3 => '3' | 4 => '4'
  | 5 => '5' | 6 => '6' | 7 => '7' | 8 => '8' | _ => '9'

/-- Fuel-driven core of the decimal printer (structural recursion, so that
concrete keys evaluate inside the kernel; the fuel is always sufficient
because a number's digit count never exceeds the number plus one). -/
def natDecAux (fuel n : Nat) : List Char :=
  match fuel with
  | 0 => []
  | fuel + 1 =>
    if n < 10 then [decDigit n]
    else natDecAux fuel (n / 10) ++ [decDigit (n % 10)]

/-- Decimal representation, most-significant digit first — the format Rust's
`Display` for unsigned integers (`u64`, `u128`) produces, used by
`format!("entry.{user_id}.{date}.{timestamp}")` and numeric JSON fields. -/
def natDec (n : Nat) : List Char := natDecAux (n + 1) n

/-- Fuel-driven core of the embedding of Rust's `str::replace` (structural
recursion; every step consumes at least one character, so `s.length` fuel is
always sufficient). -/
def replaceAllAux (p r : List Char) (fuel : Nat) (s : List Char) : List Char :=
  match fuel with
  | 0 => s
  | fuel + 1 =>
    match s with
    | [] => []
    | c :: rest =>
      if p ≠ [] ∧ p.isPrefixOf (c :: rest) then
        r ++ replaceAllAux p r fuel ((c :: rest).drop p.length)
      else
        c :: replaceAllAux p r fuel rest

/-- Embeds Rust's `str::replace` (`end_day.rs` line 62:
`record.replace(date, &tomorrow)`): scan left to right, replacing every
non-overlapping occurrence of `p` with `r`.  (`p` is the stored date string,
never empty on the path where the code calls it.) -/
def replaceAll (p r : List Char) (s : List Char) : List Char :=
  replaceAllAux p r s.length s

/-- Occurrence of `p` in `s` at position `i`. -/
def occursAt (p s : List Char) (i : Nat) : Prop :=
  p.isPrefixOf (s.drop i) = true

instance (p s : List Char) (i : Nat) : Decidable (occursAt p s i) := by
  unfold occursAt; infer_instance

/-! ### The serialized user record and the `end_day` rewrite (text level)

`end_day` treats the stored user record as raw text: it deserializes only the
`current_date` field (borrowed) and then rewrites the text with
`record.replace(date, &tomorrow)`.  `userRecordTextPre` is the serialized
record up to (and including) the opening quote of the `current_date` value;
the full record is that prefix, the date characters, and the closing `"}`.
The field layout mirrors `serde_json::to_string` of a user record carrying
the spec's `UserProfile` fields with `current_date` last. -/

def userRecordTextPre (image displayName : List Char) (tc tf tp tcb : Nat) :
    List Char :=
  lit "\x7b\x22image\x22:\x22" ++ image ++
  lit "\x22,\x22display_name\x22:\x22" ++ displayName ++
  lit "\x22,\x22target_calories\x22:" ++ natDec tc ++
  lit ",\x22target_fat\x22:" ++ natDec tf ++
  lit ",\x22target_protein\x22:" ++ natDec tp ++
  lit ",\x22target_carbohydrate\x22:" ++ natDec tcb ++
  lit ",\x22current_date\x22:\x22"

def userRecordText (image displayName : List Char) (tc tf tp tcb : Nat)
    (date : List Char) : List Char :=
  userRecordTextPre image displayName tc tf tp tcb ++ date ++ lit "\x22\x7d"

/-- Embeds the record rewrite of `end_day` (`end_day.rs` lines 59–62): the
new stored value is the old serialized record with every occurrence of the
old date string replaced by the new one. -/
def endDayRewrite (record date tomorrow : List Char) : List Char :=
  replaceAll date tomorrow record

/-! ### JSON values at the object level (`serde_json`)

Stored values are the JSON texts `serde_json::to_string` produces for the
`UserDbRecord` / `JournalEntryDbRecord` structs.  They are embedded as field
lists; a string field carries its escaped character content (the characters
standing between the quotes in the JSON text).  This keeps serde_json's
borrowed-string behaviour observable: deserializing into `&'a str` succeeds
only when the content contains no escape sequence (no backslash), in which
case the borrowed slice is the content itself; any escape makes serde_json
hand the visitor a transient string, which the `&str` impl rejects
("invalid type: string, expected a borrowed string"). -/

inductive JVal where
  /-- A JSON string, carrying its escaped content. -/
  | jstr (esc : List Char)
  /-- A JSON non-negative integer (`u64` / `u128` fields). -/
  | jnat (n : Nat)
  /-- A JSON number from an `f64` field; finite doubles are rationals and
  serde_json round-trips them exactly (shortest-representation printing). -/
  | jrat (q : ℚ)
deriving DecidableEq, Repr

/-- A JSON object: named fields in serialization order. -/
abbrev JObj := List (String × JVal)

/-- Lowercase hexadecimal digit character, as serde_json's `\u00XX` escapes
print their nibbles. -/
def hexDigit (n : Nat) : Char :=
  match n with
  | 0 => '0' | 1 => '1' | 2 => '2' | 3 => '3' | 4 => '4' | 5 => '5'
  | 6 => '6' | 7 => '7' | 8 => '8' | 9 => '9' | 10 => 'a' | 11 => 'b'
  | 12 => 'c' | 13 => 'd' | 14 => 'e' | _ => 'f'

/-- JSON escaping of one character, as `serde_json` emits it. -/
def escapeChar (c : Char) : List Char :=
  if c = '\x22' then ['\\', '\x22']
  else if c = '\\' then ['\\', '\\']
  else if c = '\x08' then ['\\', 'b']
  else if c = '\x09' then ['\\', 't']
  else if c = '\x0a' then ['\\', 'n']
  else if c = '\x0c' then ['\\', 'f']
  else if c = '\x0d' then ['\\', 'r']
  else if c.val < 32 then
    ['\\', 'u', '0', '0', hexDigit (c.toNat / 16), hexDigit (c.toNat % 16)]
  else [c]

/-- Characters that serde_json escapes inside JSON strings. -/
def needsEscape (c : Char) : Bool :=
  c = '\x22' || c = '\\' || decide (c.val < 32)

def escapeChars (l : List Char) : List Char := l.flatMap escapeChar

/-- A string none of whose characters needs JSON escaping. -/
def escFree (l : List Char) : Prop := ∀ c ∈ l, needsEscape c = false

instance (l : List Char) : Decidable (escFree l) := by
  unfold escFree; infer_instance

/-- First field of the given name (serde looks fields up by name; our encoder
never emits duplicates). -/
def objLookup (name : String) : JObj → Option JVal
  | [] => none
  | (n, v) :: rest => if n = name then some v else objLookup name rest

/-- Deserializing a JSON value into a borrowed `&'a str` field:  fails unless
the value is a string free of escape sequences. -/
def decodeStr (v : JVal) : Option (List Char) :=
  match v with
  | .jstr esc => if esc.contains '\\' then none else some esc
  | _ => none

/-- Deserializing into `u64` (serde_json rejects out-of-range numbers). -/
def decodeU64 (v : JVal) : Option Nat :=
  match v with
  | .jnat n => if n < 2 ^ 64 then some n else none
  | _ => none

/-- Deserializing into `u128`. -/
def decodeU128 (v : JVal) : Option Nat :=
  match v with
  | .jnat n => if n < 2 ^ 128 then some n else none
  | _ => none

/-- Deserializing into `f64` (finite doubles only, modelled exactly). -/
def decodeF64 (v : JVal) : Option ℚ :=
  match v with
  | .jrat q => some q
  | _ => none

/-! ### The record structs of the Key-Schema Codec

`UserDbRecord` (`users.rs` lines 22–32) and `JournalEntryDbRecord`
(`journal.rs` lines 24–34), with `&str` fields as character lists, `u64`
fields as `Nat` bounded by `2^64` in the validity predicates, `u128` as `Nat`
bounded by `2^128`, and the `f64` field `qty` as `ℚ`. -/

structure UserRec where
  image : List Char
  display_name : List Char
  target_calories : Nat
  target_fat : Nat
  target_protein : Nat
  target_carbohydrate : Nat
deriving DecidableEq, Repr

instance : Inhabited UserRec := ⟨⟨[], [], 0, 0, 0, 0⟩⟩

structure EntryRec where
  text : List Char
  timestamp : Nat
  qty : ℚ
  qty_units : List Char
  calories : Nat
  carbohydrate : Nat
  fat : Nat
  protein : Nat
deriving DecidableEq, Repr

instance : Inhabited EntryRec := ⟨⟨[], 0, 0, [], 0, 0, 0, 0⟩⟩

def validUserRec (r : UserRec) : Prop :=
  r.target_calories < 2 ^ 64 ∧ r.target_fat < 2 ^ 64 ∧
  r.target_protein < 2 ^ 64 ∧ r.target_carbohydrate < 2 ^ 64

instance (r : UserRec) : Decidable (validUserRec r) := by
  unfold validUserRec; infer_instance

def validEntryRec (e : EntryRec) : Prop :=
  e.timestamp < 2 ^ 128 ∧ e.calories < 2 ^ 64 ∧ e.carbohydrate < 2 ^ 64 ∧
  e.fat < 2 ^ 64 ∧ e.protein < 2 ^ 64

instance (e : EntryRec) : Decidable (validEntryRec e) := by
  unfold validEntryRec; infer_instance

/-- `serde_json::to_string::<UserDbRecord>` at the object level: the six
fields in declaration order — and no `current_date` field. -/
def encodeUser (r : UserRec) : JObj :=
  [("image", .jstr (escapeChars r.image)),
   ("display_name", .jstr (escapeChars r.display_name)),
   ("target_calories", .jnat r.target_calories),
   ("target_fat", .jnat r.target_fat),
   ("target_protein", .jnat r.target_protein),
   ("target_carbohydrate", .jnat r.target_carbohydrate)]

/-- `serde_json::from_str::<UserDbRecord>` at the object level: every struct
field must be present with the right type; the `&'a str` fields borrow. -/
def decodeUser (o : JObj) : Option UserRec := do
  let image ← decodeStr (← objLookup "image" o)
  let dn ← decodeStr (← objLookup "display_name" o)
  let tc ← decodeU64 (← objLookup "target_calories" o)
  let tf ← decodeU64 (← objLookup "target_fat" o)
  let tp ← decodeU64 (← objLookup "target_protein" o)
  let tcb ← decodeU64 (← objLookup "target_carbohydrate" o)
  pure ⟨image, dn, tc, tf, tp, tcb⟩

/-- `serde_json::to_string::<JournalEntryDbRecord>` at the object level. -/
def encodeEntry (e : EntryRec) : JObj :=
  [("text", .jstr (escapeChars e.text)),
   ("timestamp", .jnat e.timestamp),
   ("qty", .jrat e.qty),
   ("qty_units", .jstr (escapeChars e.qty_units)),
   ("calories", .jnat e.calories),
   ("carbohydrate", .jnat e.carbohydrate),
   ("fat", .jnat e.fat),
   ("protein", .jnat e.protein)]

/-- `serde_json::from_str::<JournalEntryDbRecord>` at the object level. -/
def decodeEntry (o : JObj) : Option EntryRec := do
  let text ← decodeStr (← objLookup "text" o)
  let ts ← decodeU128 (← objLookup "timestamp" o)
  let qty ← decodeF64 (← objLookup "qty" o)
  let qu ← decodeStr (← objLookup "qty_units" o)
  let cal ← decodeU64 (← objLookup "calories" o)
  let carb ← decodeU64 (← objLookup "carbohydrate" o)
  let fat ← decodeU64 (← objLookup "fat" o)
  let prot ← decodeU64 (← objLookup "protein" o)
  pure ⟨text, ts, qty, qu, cal, carb, fat, prot⟩

/-! ### The embedded engine (LMDB via heed)

One flat database mapping string keys to stored records; the engine keeps
keys in unsigned-byte lexicographic order (here: `List.Lex` on ASCII
character lists), `put` upserts, and `prefix_iter` yields the binding range
of a prefix in key order.  A write transaction buffers its puts; they become
visible only when `commit` runs, and dropping the transaction without
committing discards them. -/

abbrev Key := List Char

/-- LMDB's key order: lexicographic byte order. -/
def keyLt (a b : Key) : Prop := List.Lex (· < ·) a b

instance (a b : Key) : Decidable (keyLt a b) := by
  unfold keyLt; exact List.Lex.decidableRel _ a b

/-- The flat database, as a key-sorted association list. -/
abbrev Store := List (Key × JObj)

/-- Sortedness invariant maintained by `dbPut`. -/
def KSorted (s : Store) : Prop := s.Pairwise fun a b => keyLt a.1 b.1

instance (s : Store) : Decidable (KSorted s) := by
  unfold KSorted; infer_instance

/-- Engine lookup. -/
def dbGet (s : Store) (k : Key) : Option JObj :=
  match s with
  | [] => none
  | (k', v) :: rest => if k' = k then some v else dbGet rest k

/-- Engine upsert, preserving key order (insert or overwrite). -/
def dbPut (s : Store) (k : Key) (v : JObj) : Store :=
  match s with
  | [] => [(k, v)]
  | (k', v') :: rest =>
    if keyLt k k' then (k, v) :: (k', v') :: rest
    else if keyLt k' k then (k', v') :: dbPut rest k v
    else (k, v) :: rest

/-- Committing a write transaction applies its buffered puts in order, as one
atomic step. -/
def txnCommit (s : Store) (pend : List (Key × JObj)) : Store :=
  pend.foldl (fun acc kv => dbPut acc kv.1 kv.2) s

/-- `prefix_iter`: all bindings whose key starts with `p`, in key order
(the store is key-sorted, so filtering preserves the engine's yield order). -/
def prefixIter (s : Store) (p : Key) : Store :=
  s.filter fun kv => p.isPrefixOf kv.1

/-! ### Error taxonomy of the Façade operations

The handlers surface `anyhow` errors; the constructors below name the
distinct failure sites: the `bail!("User does not exist in db")` precondition
(`notFound`), a serde decode failure (`corrupt`), a `jiff` date-parse failure
(`badDate`), and a Rust panic — `&text[..16]` out of bounds or the
out-of-range date addition (`panicked`).  A panic is not a graceful typed
error; it unwinds, aborting the open transaction. -/

inductive Err where
  | notFound
  | corrupt
  | badDate
  | panicked
deriving DecidableEq, Repr

/-! ### Handler embeddings -/

/-- The user key `format!("user.{user_id}")`. -/
def userKey (uid : List Char) : Key := lit "user." ++ uid

/-- The entry key `format!("entry.{user_id}.{date}.{timestamp}")`
(`journal.rs` line 142). -/
def entryKey (uid date : List Char) (ts : Nat) : Key :=
  lit "entry." ++ uid ++ lit "." ++ date ++ lit "." ++ natDec ts

/-- The recall-index key computation
`format!("food.{}", &payload.text[..16])` (`journal.rs` line 143): Rust
slices the first 16 bytes unconditionally, which panics when the text is
shorter (ASCII text modelled, so bytes = characters). -/
def recallKeyCode (text : List Char) : Except Err Key :=
  if text.length < 16 then .error .panicked
  else .ok (lit "food." ++ text.take 16)

/-- `get_current_date` (`end_day.rs` lines 13–31): look the user record up,
bail if absent, and deserialize only the borrowed `current_date` field. -/
def getCurrentDateM (store : Store) (uid : List Char) : Except Err (List Char) :=
  match dbGet store (userKey uid) with
  | none => .error .notFound
  | some o =>
    match objLookup "current_date" o with
    | some v =>
      match decodeStr v with
      | some date => .ok date
      | none => .error .corrupt
    | none => .error .corrupt

/-- The journal-POST payload (already JSON-decoded by the adapter). -/
structure JPayload where
  text : List Char
  qty : ℚ
  qty_units : List Char
  calories : Nat
  carbohydrate : Nat
  fat : Nat
  protein : Nat

/-- The `JournalEntryDbRecord` built by `post_journal` from the payload and
the millisecond timestamp. -/
def entryRecOf (p : JPayload) (ts : Nat) : EntryRec :=
  ⟨p.text, ts, p.qty, p.qty_units, p.calories, p.carbohydrate, p.fat, p.protein⟩

/-- The body of `post_journal`'s write transaction (`journal.rs` lines
121–147) up to — but not including — `wtxn.commit()`: read the user's
`current_date`, build and serialize the record, compute the two keys, and
buffer the two puts.  Returns the transaction's pending writes. -/
def postJournalTxn (store : Store) (uid : List Char) (p : JPayload)
    (ts : Nat) : Except Err (List (Key × JObj)) :=
  match getCurrentDateM store uid with
  | .error e => .error e
  | .ok date =>
    let obj := encodeEntry (entryRecOf p ts)
    match recallKeyCode p.text with
    | .error e => .error e
    | .ok rk => .ok [(entryKey uid date ts, obj), (rk, obj)]

/-- `post_journal`, run to completion: on success the transaction commits its
two buffered puts atomically; on any failure (including a panic) the
transaction is dropped and the store is unchanged. -/
def postJournalRun (store : Store) (uid : List Char) (p : JPayload)
    (ts : Nat) : Store × Except Err Unit :=
  match postJournalTxn store uid p ts with
  | .error e => (store, .error e)
  | .ok pend => (txnCommit store pend, .ok ())

/-- `post_journal` interrupted after computing both keys (and buffering the
puts) but before `wtxn.commit()`: the dropped transaction discards its
pending writes, so the store is exactly the pre-call store. -/
def postJournalInterrupted (store : Store) (uid : List Char) (p : JPayload)
    (ts : Nat) : Store :=
  match postJournalTxn store uid p ts with
  | _ => store

/-- Length of the identifier prefix stripped from entry keys
(`"entry..".len() + user_id.len()`, `journal.rs` line 87). -/
def entryPrefLen (uid : List Char) : Nat := (lit "entry..").length + uid.length

/-- The scan prefix `format!("entry.{user_id}.")` (`journal.rs` line 92). -/
def entryPref (uid : List Char) : Key := lit "entry." ++ uid ++ lit "."

/-- The decode loop of `get_journal` (`journal.rs` lines 92–96): each scanned
value is deserialized with `?`, so the first corrupt record aborts the whole
request; on success each entry is paired with `&key[prefix_len..]`. -/
def decodeEntries (uid : List Char) : Store → Except Err (List (Key × EntryRec))
  | [] => .ok []
  | (k, v) :: rest =>
    match decodeEntry v with
    | none => .error .corrupt
    | some r =>
      match decodeEntries uid rest with
      | .error e => .error e
      | .ok l => .ok ((k.drop (entryPrefLen uid), r) :: l)

/-- `get_journal`: one read transaction, prefix scan, decode in key order. -/
def getJournalRun (store : Store) (uid : List Char) :
    Except Err (List (Key × EntryRec)) :=
  decodeEntries uid (prefixIter store (entryPref uid))

/-- The decode loop of `get_users` (`users.rs` lines 190–194): each scanned
value is deserialized with `?` (abort on failure) and paired with the user
name `&key[5..]` — the key minus the five-character `"user."` prefix. -/
def decodeUsers : Store → Except Err (List (Key × UserRec))
  | [] => .ok []
  | (k, v) :: rest =>
    match decodeUser v with
    | none => .error .corrupt
    | some r =>
      match decodeUsers rest with
      | .error e => .error e
      | .ok l => .ok ((k.drop 5, r) :: l)

/-- `get_users`: one read transaction, prefix scan over `"user."`. -/
def getUsersRun (store : Store) : Except Err (List (Key × UserRec)) :=
  decodeUsers (prefixIter store (lit "user."))

/-- `register` (`users.rs` lines 129–160): one write transaction storing the
serialized `UserDbRecord` under `user.<user_name>`.  The record's numeric
targets come from `target_macros2`/`target_macros` (f64 arithmetic in the
source); the record is taken as a parameter, so every possible stored record
is covered.  Note the record has no `current_date` field. -/
def registerRun (store : Store) (userName : List Char) (r : UserRec) : Store :=
  dbPut store (userKey userName) (encodeUser r)

/-! ### `end_day` at the store level -/

def digitVal (c : Char) : Option Nat :=
  if '0' ≤ c ∧ c ≤ '9' then some (c.toNat - 48) else none

/-- Parses the ten characters of an unsigned extended-format ISO calendar
date `YYYY-MM-DD` (four zero-padded year digits). -/
def parseYmd (l : List Char) : Option (Nat × Nat × Nat) :=
  match l with
  | [y1, y2, y3, y4, s1, m1, m2, s2, d1, d2] =>
    if s1 = '-' ∧ s2 = '-' then do
      let a ← digitVal y1
      let b ← digitVal y2
      let c ← digitVal y3
      let d ← digitVal y4
      let e ← digitVal m1
      let f ← digitVal m2
      let g ← digitVal d1
      let h ← digitVal d2
      pure (a * 1000 + b * 100 + c * 10 + d, e * 10 + f, g * 10 + h)
    else none
  | _ => none

/-- Parses the twelve characters following a sign in an extended-format ISO
calendar date: six zero-padded year digits, then `-MM-DD` (a signed year
must be six digits wide in jiff's ISO grammar). -/
def parseYmd6 (l : List Char) : Option (Nat × Nat × Nat) :=
  match l with
  | [y1, y2, y3, y4, y5, y6, s1, m1, m2, s2, d1, d2] =>
    if s1 = '-' ∧ s2 = '-' then do
      let a ← digitVal y1
      let b ← digitVal y2
      let c ← digitVal y3
      let d ← digitVal y4
      let e ← digitVal y5
      let f ← digitVal y6
      let g ← digitVal m1
      let h ← digitVal m2
      let i ← digitVal d1
      let j ← digitVal d2
      pure (a * 100000 + b * 10000 + c * 1000 + d * 100 + e * 10 + f,
            g * 10 + h, i * 10 + j)
    else none
  | _ => none

/-- `jiff::civil::Date::from_str`: an ISO-8601 extended calendar date — an
unsigned four-digit year, or a sign followed by a six-digit year — range-
and calendar-checked. -/
def parseISODate (l : List Char) : Option CivilDate :=
  match l with
  | [] => none
  | c :: rest =>
    if c = '-' then
      match parseYmd6 rest with
      | some (y, m, d) =>
        let date : CivilDate := ⟨-(y : Int), m, d⟩
        if validDate date then some date else none
      | none => none
    else if c = '+' then
      match parseYmd6 rest with
      | some (y, m, d) =>
        let date : CivilDate := ⟨(y : Int), m, d⟩
        if validDate date then some date else none
      | none => none
    else
      match parseYmd (c :: rest) with
      | some (y, m, d) =>
        let date : CivilDate := ⟨(y : Int), m, d⟩
        if validDate date then some date else none
      | none => none

def padZeros (n : Nat) (l : List Char) : List Char :=
  List.replicate (n - l.length) '0' ++ l

/-- `jiff::civil::Date`'s `Display`: zero-padded ISO `YYYY-MM-DD` for years
0 through 9999; a negative year is printed as a sign followed by six
zero-padded digits. -/
def dateToISO (d : CivilDate) : List Char :=
  if d.year < 0 then
    '-' :: (padZeros 6 (natDec d.year.natAbs) ++
      '-' :: (padZeros 2 (natDec d.month) ++ '-' :: padZeros 2 (natDec d.day)))
  else
    padZeros 4 (natDec d.year.natAbs) ++
      '-' :: (padZeros 2 (natDec d.month) ++ '-' :: padZeros 2 (natDec d.day))

/-- The stored-record rewrite of `end_day` seen at the object level.  The
source replaces every occurrence of the old date substring in the raw JSON
text (`record.replace(date, &tomorrow)`, embedded textually as
`endDayRewrite`).  On the only path where this runs, `date` parsed as an ISO
date, so it consists of digits and dashes and cannot straddle JSON syntax,
match inside a field name, or match inside an unsigned number — every
occurrence lies inside a string field's content, so the text-level replace
acts exactly as a replace within each string field. -/
def objReplaceDate (date tomorrow : List Char) (o : JObj) : JObj :=
  o.map fun f =>
    (f.1, match f.2 with
          | .jstr esc => .jstr (replaceAll date tomorrow esc)
          | v => v)

/-- `end_day` (`end_day.rs` lines 37–72): one write transaction reading the
cursor, computing `D + 27 hours`, rewriting the record by find-and-replace,
and committing; the new date string is returned. -/
def endDayRun (store : Store) (uid : List Char) :
    Store × Except Err (List Char) :=
  match getCurrentDateM store uid with
  | .error e => (store, .error e)
  | .ok date =>
    match parseISODate date with
    | none => (store, .error .badDate)
    | some d =>
      match endDayDate d with
      | none => (store, .error .panicked)
      | some d' =>
        let tomorrow := dateToISO d'
        match dbGet store (userKey uid) with
        | none => (store, .error .notFound)
        | some o =>
          (dbPut store (userKey uid) (objReplaceDate date tomorrow o),
           .ok tomorrow)

/-- `n` successive `end_day` requests against the store: each call's
resulting store feeds the next call (a failed call leaves the store
unchanged, per `endDayRun`). -/
def endDayIter : Nat → Store → List Char → Store
  | 0, store, _ => store
  | n + 1, store, uid => (endDayRun (endDayIter n store uid) uid).1

/-! ## Theorems -/

/-! ### C1 — rollover date transition -/

theorem dateLt_trans {a b c : CivilDate} (h1 : dateLt a b) (h2 : dateLt b c) :
    dateLt a c := by
  unfold dateLt at h1 h2 ⊢
  rcases h1 with h1 | ⟨e1, h1⟩
  · rcases h2 with h2 | ⟨e2, _⟩
    · left; omega
    · left; omega
  · rcases h2 with h2 | ⟨e2, h2⟩
    · left; omega
    · refine Or.inr ⟨by omega, ?_⟩
      rcases h1 with h1 | ⟨f1, h1⟩
      · rcases h2 with h2 | ⟨f2, _⟩
        · left; omega
        · left; omega
      · rcases h2 with h2 | ⟨f2, h2⟩
        · left; omega
        · exact Or.inr ⟨by omega, by omega⟩

theorem nextDay_dateLt (d : CivilDate) : dateLt d (nextDay d) := by
  unfold nextDay dateLt
  split
  · exact Or.inr ⟨rfl, Or.inr ⟨rfl, Nat.lt_succ_self d.day⟩⟩
  · split
    · exact Or.inr ⟨rfl, Or.inl (Nat.lt_succ_self d.month)⟩
    · exact Or.inl (Int.lt_add_one_iff.mpr le_rfl)

theorem daysInMonth_pos {y : Int} {m : Nat} (h1 : 1 ≤ m) (h2 : m ≤ 12) :
    1 ≤ daysInMonth y m := by
  interval_cases m
  all_goals simp [daysInMonth]
  all_goals (split <;> omega)

theorem daysInMonth_le_31 (y : Int) (m : Nat) : daysInMonth y m ≤ 31 := by
  unfold daysInMonth
  split <;> first | omega | (split <;> omega)

theorem nextDay_valid {d : CivilDate} (hv : validDate d = true)
    (hmax : d ≠ ⟨9999, 12, 31⟩) : validDate (nextDay d) = true := by
  simp only [validDate, Bool.and_eq_true, decide_eq_true_eq] at hv
  obtain ⟨⟨⟨⟨⟨hy1, hy2⟩, hm1⟩, hm2⟩, hd1⟩, hd2⟩ := hv
  unfold nextDay
  split
  · simp only [validDate, Bool.and_eq_true, decide_eq_true_eq]
    refine ⟨⟨⟨⟨⟨hy1, hy2⟩, hm1⟩, hm2⟩, by omega⟩, by omega⟩
  · split
    · simp only [validDate, Bool.and_eq_true, decide_eq_true_eq]
      refine ⟨⟨⟨⟨⟨hy1, hy2⟩, by omega⟩, by omega⟩, by omega⟩, ?_⟩
      exact daysInMonth_pos (by omega) (by omega)
    · have hm : d.month = 12 := by omega
      have hdim : daysInMonth d.year d.month = 31 := by rw [hm]; rfl
      have hd31 : d.day = 31 := by
        have := daysInMonth_le_31 d.year d.month
        omega
      have hy : d.year ≠ 9999 := by
        intro hy
        exact hmax (by cases d; simp_all)
      simp only [validDate, Bool.and_eq_true, decide_eq_true_eq]
      refine ⟨⟨⟨⟨⟨by omega, by omega⟩, by omega⟩, by omega⟩, by omega⟩, ?_⟩
      exact daysInMonth_pos (by omega) (by omega)

theorem endDayDate_eq {d : CivilDate} (hv : validDate d = true)
    (hmax : d ≠ ⟨9999, 12, 31⟩) : endDayDate d = some (nextDay d) := by
  unfold endDayDate
  rw [if_pos (nextDay_valid hv hmax)]

theorem endDayDate_some_lt {d d' : CivilDate} (h : endDayDate d = some d') :
    d' = nextDay d ∧ dateLt d d' := by
  unfold endDayDate at h
  split at h
  · cases h
    exact ⟨rfl, nextDay_dateLt d⟩
  · cases h

theorem iterEndDay_zero (d : CivilDate) : iterEndDay 0 d = some d := rfl

theorem iterEndDay_succ (n : Nat) (d : CivilDate) :
    iterEndDay (n + 1) d = (endDayDate d).bind (iterEndDay n) := rfl

theorem iterEndDay_succ_lt :
    ∀ (n : Nat) (d d' : CivilDate), iterEndDay (n + 1) d = some d' → dateLt d d' := by
  intro n
  induction n with
  | zero =>
    intro d d' h
    rw [iterEndDay_succ] at h
    rcases he : endDayDate d with _ | e
    · rw [he] at h; cases h
    · rw [he] at h
      simp only [Option.some_bind, iterEndDay_zero] at h
      cases h
      exact (endDayDate_some_lt he).2
  | succ m ih =>
    intro d d' h
    rw [iterEndDay_succ] at h
    rcases he : endDayDate d with _ | e
    · rw [he] at h; cases h
    · rw [he] at h
      simp only [Option.some_bind] at h
      exact dateLt_trans (endDayDate_some_lt he).2 (ih e d' h)

theorem iterEndDay_add (i j : Nat) (d : CivilDate) :
    iterEndDay (i + j) d = (iterEndDay i d).bind (iterEndDay j) := by
  induction i generalizing d with
  | zero => simp [iterEndDay_zero]
  | succ m ih =>
    have hs : m + 1 + j = (m + j) + 1 := by omega
    rw [hs]
    simp only [iterEndDay_succ]
    cases endDayDate d with
    | none => simp
    | some e => simp only [Option.some_bind]; exact ih e

/-- C1 — the claim as stated is false at the maximal jiff date: `9999-12-31`
is a valid calendar date, but `Date + 27 hours` overflows jiff's range there
and the `Add` impl panics instead of producing (and storing) a following
calendar day. -/
theorem c1_counter_max_date_panics :
    validDate ⟨9999, 12, 31⟩ = true ∧ endDayDate ⟨9999, 12, 31⟩ = none := by
  constructor
  · decide
  · decide

/-- Strict monotonicity of the pure date iteration (used by the
handler-level rollover theorem below). -/
theorem iterEndDay_strict_mono (d : CivilDate) :
    ∀ i j di dj, i < j → iterEndDay i d = some di →
      iterEndDay j d = some dj → dateLt di dj := by
  intro i j di dj hij hi hj
  have hsplit : j = i + ((j - i - 1) + 1) := by omega
  rw [hsplit, iterEndDay_add, hi] at hj
  simp only [Option.some_bind] at hj
  exact iterEndDay_succ_lt _ di dj hj

/-! ### Computation laws for the fuel-driven definitions -/

theorem natDecAux_irrel :
    ∀ f1 f2 n, n < f1 → n < f2 → natDecAux f1 n = natDecAux f2 n := by
  intro f1
  induction f1 with
  | zero => intro f2 n h1 _; omega
  | succ g ih =>
    intro f2 n h1 h2
    cases f2 with
    | zero => omega
    | succ g2 =>
      simp only [natDecAux]
      by_cases hn : n < 10
      · rw [if_pos hn, if_pos hn]
      · rw [if_neg hn, if_neg hn]
        have hdiv : n / 10 < n := Nat.div_lt_self (by omega) (by omega)
        rw [ih g2 (n / 10) (by omega) (by omega)]

theorem natDec_unfold (n : Nat) :
    natDec n =
      if n < 10 then [decDigit n] else natDec (n / 10) ++ [decDigit (n % 10)] := by
  unfold natDec
  rw [show natDecAux (n + 1) n =
        if n < 10 then [decDigit n] else natDecAux n (n / 10) ++ [decDigit (n % 10)]
      from rfl]
  by_cases hn : n < 10
  · rw [if_pos hn, if_pos hn]
  · rw [if_neg hn, if_neg hn]
    have hdiv : n / 10 < n := Nat.div_lt_self (by omega) (by omega)
    rw [natDecAux_irrel n (n / 10 + 1) (n / 10) (by omega) (by omega)]

theorem replaceAllAux_irrel (p r : List Char) :
    ∀ f1 f2 s, s.length ≤ f1 → s.length ≤ f2 →
      replaceAllAux p r f1 s = replaceAllAux p r f2 s := by
  intro f1
  induction f1 with
  | zero =>
    intro f2 s h1 _
    have : s = [] := List.eq_nil_of_length_eq_zero (by omega)
    subst this
    cases f2 <;> simp [replaceAllAux]
  | succ g ih =>
    intro f2 s h1 h2
    cases s with
    | nil => cases f2 <;> simp [replaceAllAux]
    | cons c rest =>
      cases f2 with
      | zero => simp at h2
      | succ g2 =>
        simp only [replaceAllAux]
        by_cases hc : p ≠ [] ∧ p.isPrefixOf (c :: rest)
        · rw [if_pos hc, if_pos hc]
          have hp : 0 < p.length := List.length_pos.mpr hc.1
          have hlen : ((c :: rest).drop p.length).length ≤ g := by
            simp only [List.length_drop, List.length_cons]
            simp only [List.length_cons] at h1
            omega
          have hlen2 : ((c :: rest).drop p.length).length ≤ g2 := by
            simp only [List.length_drop, List.length_cons]
            simp only [List.length_cons] at h2
            omega
          rw [ih g2 _ hlen hlen2]
        · rw [if_neg hc, if_neg hc]
          simp only [List.length_cons] at h1 h2
          rw [ih g2 rest (by omega) (by omega)]

theorem replaceAll_nil (p r : List Char) : replaceAll p r [] = [] := rfl

theorem replaceAll_cons (p r : List Char) (c : Char) (rest : List Char) :
    replaceAll p r (c :: rest) =
      if p ≠ [] ∧ p.isPrefixOf (c :: rest) then
        r ++ replaceAll p r ((c :: rest).drop p.length)
      else
        c :: replaceAll p r rest := by
  unfold replaceAll
  simp only [List.length_cons, replaceAllAux]
  by_cases hc : p ≠ [] ∧ p.isPrefixOf (c :: rest)
  · rw [if_pos hc, if_pos hc]
    have hp : 0 < p.length := List.length_pos.mpr hc.1
    rw [replaceAllAux_irrel p r rest.length ((c :: rest).drop p.length).length _
        (by simp only [List.length_drop, List.length_cons]; omega) le_rfl]
  · rw [if_neg hc, if_neg hc]

/-! ### C2 — the `end_day` record rewrite -/

theorem isPrefixOf_append_self (p t : List Char) : p.isPrefixOf (p ++ t) = true := by
  induction p with
  | nil => simp
  | cons a as ih => simp [List.isPrefixOf, ih]

theorem drop_len_add (X B : List Char) (i : Nat) :
    (X ++ B).drop (X.length + i) = B.drop i := by
  induction X with
  | nil => simp
  | cons x xs ih =>
    simp only [List.cons_append, List.length_cons]
    rw [show xs.length + 1 + i = (xs.length + i) + 1 by omega, List.drop_succ_cons, ih]

theorem occursAt_lt_length {p s : List Char} {i : Nat} (hp : p ≠ [])
    (h : occursAt p s i) : i < s.length := by
  unfold occursAt at h
  by_contra hi
  rw [List.drop_eq_nil_of_le (by omega)] at h
  cases p with
  | nil => exact hp rfl
  | cons a as => simp [List.isPrefixOf] at h

theorem replaceAll_eq_self (p r : List Char) :
    ∀ s, (∀ i, ¬ occursAt p s i) → replaceAll p r s = s := by
  intro s
  induction s with
  | nil => intro _; rfl
  | cons c rest ih =>
    intro h
    rw [replaceAll_cons, if_neg, ih fun i => h (i + 1)]
    rintro ⟨_, hpre⟩
    exact h 0 hpre

theorem replaceAll_splice (p r : List Char) (hp : p ≠ []) :
    ∀ A B, (∀ i, occursAt p (A ++ (p ++ B)) i → i = A.length) →
      replaceAll p r (A ++ (p ++ B)) = A ++ (r ++ replaceAll p r B) := by
  intro A
  induction A with
  | nil =>
    intro B _
    simp only [List.nil_append, List.length_nil]
    cases p with
    | nil => exact absurd rfl hp
    | cons ph pt =>
      rw [show (ph :: pt) ++ B = ph :: (pt ++ B) from rfl, replaceAll_cons,
        if_pos ⟨hp, by rw [show ph :: (pt ++ B) = (ph :: pt) ++ B from rfl];
                       exact isPrefixOf_append_self _ _⟩]
      rw [show ph :: (pt ++ B) = (ph :: pt) ++ B from rfl, List.drop_left]
  | cons a A' ih =>
    intro B h
    have hnotocc : ¬(p ≠ [] ∧ p.isPrefixOf (a :: (A' ++ (p ++ B))) = true) := by
      rintro ⟨_, hpre⟩
      have h0 := h 0 hpre
      simp at h0
    have h' : ∀ i, occursAt p (A' ++ (p ++ B)) i → i = A'.length := by
      intro i hi
      have := h (i + 1) hi
      simpa using this
    show replaceAll p r (a :: (A' ++ (p ++ B))) = (a :: A') ++ (r ++ replaceAll p r B)
    rw [replaceAll_cons, if_neg hnotocc, ih B h']
    rfl

set_option maxRecDepth 40000

/-- C2 — the claim as stated is false: the rewrite is a find-and-replace of
the old date string over the whole serialized record, so a record whose
`image` field happens to contain the date string has that field rewritten as
well — the result equals the record with *both* `image` and `current_date`
updated, which differs from the targeted update the claim promises. -/
theorem c2_counter_image_field_rewritten :
    endDayRewrite
        (userRecordText (lit "2024-03-01") (lit "al") 1 2 3 4 (lit "2024-03-01"))
        (lit "2024-03-01") (lit "2024-03-02")
      = userRecordText (lit "2024-03-02") (lit "al") 1 2 3 4 (lit "2024-03-02") ∧
    userRecordText (lit "2024-03-02") (lit "al") 1 2 3 4 (lit "2024-03-02")
      ≠ userRecordText (lit "2024-03-01") (lit "al") 1 2 3 4 (lit "2024-03-02") := by
  constructor
  · decide
  · decide

/-- C2 (amended) — `end_day` rewrites the stored record by find-and-replace
of the old date string in the serialized text (a targeted textual update,
not a decode/re-encode).  Provided the old date string occurs in the record
only as the `current_date` field's value, every other byte of the record —
in particular every other field — is preserved exactly; a record in which
another field contains the date string as a substring is also rewritten
there. -/
theorem c2_rewrite_targeted_when_unique (image dn : List Char)
    (tc tf tp tcb : Nat) (date tomorrow : List Char) (hne : date ≠ [])
    (huniq : ∀ i < (userRecordText image dn tc tf tp tcb date).length,
      occursAt date (userRecordText image dn tc tf tp tcb date) i →
      i = (userRecordTextPre image dn tc tf tp tcb).length) :
    endDayRewrite (userRecordText image dn tc tf tp tcb date) date tomorrow
      = userRecordText image dn tc tf tp tcb tomorrow := by
  unfold endDayRewrite
  unfold userRecordText at huniq ⊢
  simp only [List.append_assoc] at huniq ⊢
  have huniq' : ∀ i,
      occursAt date (userRecordTextPre image dn tc tf tp tcb ++
        (date ++ lit "\x22\x7d")) i →
      i = (userRecordTextPre image dn tc tf tp tcb).length := by
    intro i hi
    exact huniq i (occursAt_lt_length hne hi) hi
  rw [replaceAll_splice date tomorrow hne _ _ huniq']
  rw [replaceAll_eq_self date tomorrow (lit "\x22\x7d")]
  intro i hocc
  have hshift : occursAt date
      (userRecordTextPre image dn tc tf tp tcb ++ (date ++ lit "\x22\x7d"))
      ((userRecordTextPre image dn tc tf tp tcb).length + (date.length + i)) := by
    unfold occursAt at hocc ⊢
    rw [drop_len_add, drop_len_add date (lit "\x22\x7d") i]
    exact hocc
  have := huniq' _ hshift
  have hd : date.length ≠ 0 := fun h0 => hne (List.eq_nil_of_length_eq_zero h0)
  omega

/-- C2 witness: the amended theorem applied to a record whose other fields do
not contain the date string. -/
theorem c2_rewrite_witness :
    (lit "2024-03-01" ≠ []) ∧
    (∀ i < (userRecordText (lit "img") (lit "al") 1 2 3 4 (lit "2024-03-01")).length,
      occursAt (lit "2024-03-01")
        (userRecordText (lit "img") (lit "al") 1 2 3 4 (lit "2024-03-01")) i →
      i = (userRecordTextPre (lit "img") (lit "al") 1 2 3 4).length) ∧
    endDayRewrite (userRecordText (lit "img") (lit "al") 1 2 3 4 (lit "2024-03-01"))
        (lit "2024-03-01") (lit "2024-03-02")
      = userRecordText (lit "img") (lit "al") 1 2 3 4 (lit "2024-03-02") :=
  ⟨by decide, by decide,
   c2_rewrite_targeted_when_unique (lit "img") (lit "al") 1 2 3 4
     (lit "2024-03-01") (lit "2024-03-02") (by decide) (by decide)⟩

/-! ### Engine lemmas -/

theorem keyLt_asymm {a b : Key} (h : keyLt a b) : ¬ keyLt b a :=
  fun hb => (List.Lex.isAsymm (r := (· < · : Char → Char → Prop))).asymm a b h hb

theorem keyLt_irrefl (a : Key) : ¬ keyLt a a :=
  fun h => keyLt_asymm h h

theorem eq_of_not_keyLt {a b : Key} (h1 : ¬ keyLt a b) (h2 : ¬ keyLt b a) :
    a = b := by
  rcases trichotomous_of (List.Lex (· < · : Char → Char → Prop)) a b with h | h | h
  · exact absurd h h1
  · exact h
  · exact absurd h h2

theorem dbGet_dbPut_self (s : Store) (k : Key) (v : JObj) :
    dbGet (dbPut s k v) k = some v := by
  induction s with
  | nil => simp [dbPut, dbGet]
  | cons kv rest ih =>
    obtain ⟨k', v'⟩ := kv
    unfold dbPut
    by_cases h1 : keyLt k k'
    · rw [if_pos h1]
      simp [dbGet]
    · rw [if_neg h1]
      by_cases h2 : keyLt k' k
      · rw [if_pos h2]
        have hne : k' ≠ k := fun he => keyLt_irrefl k (he ▸ h2)
        simp [dbGet, hne, ih]
      · rw [if_neg h2]
        simp [dbGet]

theorem dbGet_dbPut_other (s : Store) (k k' : Key) (v : JObj) (h : k ≠ k') :
    dbGet (dbPut s k v) k' = dbGet s k' := by
  induction s with
  | nil => simp [dbPut, dbGet, h]
  | cons kv rest ih =>
    obtain ⟨k0, v0⟩ := kv
    unfold dbPut
    by_cases h1 : keyLt k k0
    · rw [if_pos h1]
      simp [dbGet, h]
    · rw [if_neg h1]
      by_cases h2 : keyLt k0 k
      · rw [if_pos h2]
        simp only [dbGet]
        rw [ih]
      · rw [if_neg h2]
        have : k = k0 := eq_of_not_keyLt h1 h2
        subst this
        simp [dbGet, h]

/-! ### C6 — journal append on a missing user -/

/-- C6 — if the user record is absent, `post_journal` fails with the
missing-user precondition error (`bail!("User does not exist in db")` inside
`get_current_date`) before buffering any write; the transaction is dropped
and the store is unchanged. -/
theorem c6_missing_user_fails_before_write (store : Store) (uid : List Char)
    (p : JPayload) (ts : Nat) (h : dbGet store (userKey uid) = none) :
    postJournalRun store uid p ts = (store, .error .notFound) ∧
      postJournalTxn store uid p ts = .error .notFound := by
  have htxn : postJournalTxn store uid p ts = .error .notFound := by
    unfold postJournalTxn getCurrentDateM
    rw [h]
  constructor
  · unfold postJournalRun
    rw [htxn]
  · exact htxn

/-- C6 witness: the theorem applied to the empty store. -/
theorem c6_missing_user_witness :
    dbGet [] (userKey (lit "alice")) = none ∧
      postJournalRun [] (lit "alice") ⟨lit "toast with strawberry jam", 1, lit "g", 2, 3, 4, 5⟩ 1700000000000
        = ([], .error .notFound) :=
  ⟨rfl,
   (c6_missing_user_fails_before_write [] (lit "alice")
     ⟨lit "toast with strawberry jam", 1, lit "g", 2, 3, 4, 5⟩ 1700000000000 rfl).1⟩

/-! ### C5 — atomicity of the journal append -/

/-- C5 — `post_journal` performs the cursor read, the journal-entry write
and the recall-index write inside one write transaction: on the success path
the two puts are buffered and committed as one atomic unit, and a run
interrupted after computing the keys but before `wtxn.commit()` leaves the
store untouched — neither the entry record nor the recall-index record is
visible afterwards. -/
theorem c5_append_atomic (store : Store) (uid : List Char) (p : JPayload)
    (ts : Nat) (date : List Char)
    (hget : getCurrentDateM store uid = .ok date)
    (hlen : 16 ≤ p.text.length) :
    postJournalTxn store uid p ts =
      .ok [(entryKey uid date ts, encodeEntry (entryRecOf p ts)),
           (lit "food." ++ p.text.take 16, encodeEntry (entryRecOf p ts))] ∧
    postJournalRun store uid p ts =
      (dbPut (dbPut store (entryKey uid date ts) (encodeEntry (entryRecOf p ts)))
         (lit "food." ++ p.text.take 16) (encodeEntry (entryRecOf p ts)),
       .ok ()) ∧
    postJournalInterrupted store uid p ts = store ∧
    dbGet (postJournalInterrupted store uid p ts) (entryKey uid date ts)
      = dbGet store (entryKey uid date ts) ∧
    dbGet (postJournalInterrupted store uid p ts) (lit "food." ++ p.text.take 16)
      = dbGet store (lit "food." ++ p.text.take 16) := by
  have htxn : postJournalTxn store uid p ts =
      .ok [(entryKey uid date ts, encodeEntry (entryRecOf p ts)),
           (lit "food." ++ p.text.take 16, encodeEntry (entryRecOf p ts))] := by
    unfold postJournalTxn recallKeyCode
    rw [hget, if_neg (by omega)]
  refine ⟨htxn, ?_, rfl, rfl, rfl⟩
  unfold postJournalRun
  rw [htxn]
  rfl

/-- C5 witness: the theorem applied to a one-user store and a 25-character
entry text. -/
theorem c5_append_witness :
    getCurrentDateM
        [(userKey (lit "alice"), [("current_date", JVal.jstr (lit "2024-03-01"))])]
        (lit "alice") = .ok (lit "2024-03-01") ∧
    16 ≤ (lit "toast with strawberry jam").length ∧
    postJournalRun
        [(userKey (lit "alice"), [("current_date", JVal.jstr (lit "2024-03-01"))])]
        (lit "alice") ⟨lit "toast with strawberry jam", 1, lit "g", 2, 3, 4, 5⟩
        1700000000000
      = (dbPut
           (dbPut [(userKey (lit "alice"),
                    [("current_date", JVal.jstr (lit "2024-03-01"))])]
             (entryKey (lit "alice") (lit "2024-03-01") 1700000000000)
             (encodeEntry (entryRecOf
               ⟨lit "toast with strawberry jam", 1, lit "g", 2, 3, 4, 5⟩
               1700000000000)))
           (lit "food." ++ (lit "toast with strawberry jam").take 16)
           (encodeEntry (entryRecOf
             ⟨lit "toast with strawberry jam", 1, lit "g", 2, 3, 4, 5⟩
             1700000000000)),
         .ok ()) :=
  ⟨rfl, by decide,
   (c5_append_atomic
     [(userKey (lit "alice"), [("current_date", JVal.jstr (lit "2024-03-01"))])]
     (lit "alice") ⟨lit "toast with strawberry jam", 1, lit "g", 2, 3, 4, 5⟩
     1700000000000 (lit "2024-03-01") rfl (by decide)).2.1⟩

/-! ### C4 — registration stores no `current_date` -/

/-- C4 — the `UserDbRecord` that `register` serializes has no `current_date`
field, so on a store produced by registration, `get_current_date`'s
deserialization fails (serde missing-field error), and therefore both the
rollover (`end_day`) and the journal append (`post_journal`) fail when
decoding the stored record, before any write. -/
theorem c4_register_breaks_cursor_reads (store : Store) (userName : List Char)
    (r : UserRec) (p : JPayload) (ts : Nat) :
    objLookup "current_date" (encodeUser r) = none ∧
    getCurrentDateM (registerRun store userName r) userName = .error .corrupt ∧
    postJournalRun (registerRun store userName r) userName p ts
      = (registerRun store userName r, .error .corrupt) ∧
    endDayRun (registerRun store userName r) userName
      = (registerRun store userName r, .error .corrupt) := by
  have hobj : objLookup "current_date" (encodeUser r) = none := by
    simp [objLookup, encodeUser]
  have hget : getCurrentDateM (registerRun store userName r) userName
      = .error .corrupt := by
    unfold getCurrentDateM registerRun
    rw [dbGet_dbPut_self]
    simp only [hobj]
  refine ⟨hobj, hget, ?_, ?_⟩
  · unfold postJournalRun postJournalTxn
    rw [hget]
  · unfold endDayRun
    rw [hget]

/-! ### C3 — recall-index key on short text -/

/-- C3 — the claim (and the spec) requires a graceful `InvalidInput` error
for entry texts shorter than 16 characters, but the source slices
`&payload.text[..16]` unconditionally: at the 6-character text `"banana"`
the slice is out of bounds and the handler panics (no typed error is
produced; the write transaction is aborted by unwinding). -/
theorem c3_short_text_panics :
    recallKeyCode (lit "banana") = .error .panicked ∧
    postJournalRun
        [(userKey (lit "alice"), [("current_date", JVal.jstr (lit "2024-03-01"))])]
        (lit "alice") ⟨lit "banana", 1, lit "g", 2, 3, 4, 5⟩ 1700000000000
      = ([(userKey (lit "alice"), [("current_date", JVal.jstr (lit "2024-03-01"))])],
         .error .panicked) := by
  constructor
  · rfl
  · rfl

/-! ### C7 — a corrupt record aborts the whole scan -/

theorem decodeEntries_error_of_corrupt (uid : List Char) :
    ∀ l : Store, (∃ kv ∈ l, decodeEntry kv.2 = none) →
      decodeEntries uid l = .error .corrupt := by
  intro l
  induction l with
  | nil => rintro ⟨kv, hm, _⟩; cases hm
  | cons kv rest ih =>
    rintro ⟨kv', hm, hc⟩
    obtain ⟨k, v⟩ := kv
    rcases List.mem_cons.mp hm with he | hm'
    · subst he
      simp only [decodeEntries]
      rw [hc]
    · simp only [decodeEntries]
      cases hv : decodeEntry v with
      | none => rfl
      | some r => rw [ih ⟨kv', hm', hc⟩]

/-- C7 — the claim is false on the code: `get_journal` deserializes each
scanned record with `?`, so one corrupt record aborts the whole request.
Here the first record of the prefix range fails to decode while the second
is perfectly decodable, yet the scan yields nothing — the remaining records
of the range are lost, not yielded. -/
theorem c7_counter_scan_aborts :
    decodeEntry (encodeEntry ⟨lit "bread and butter", 200, 1, lit "g", 100, 10, 5, 3⟩)
      = some ⟨lit "bread and butter", 200, 1, lit "g", 100, 10, 5, 3⟩ ∧
    getJournalRun
        [(lit "entry.u.2024-03-01.100", []),
         (lit "entry.u.2024-03-01.200",
          encodeEntry ⟨lit "bread and butter", 200, 1, lit "g", 100, 10, 5, 3⟩)]
        (lit "u")
      = .error .corrupt := by
  constructor
  · rfl
  · rfl

/-- C7 (amended) — during a prefix scan in `get_journal`, a single stored
record that fails to decode aborts the entire scan: the call returns a
decode error and yields none of the records in the range, including the
ones after the corrupt record. -/
theorem c7_corrupt_record_aborts_scan (store : Store) (uid : List Char)
    (h : ∃ kv ∈ prefixIter store (entryPref uid), decodeEntry kv.2 = none) :
    getJournalRun store uid = .error .corrupt := by
  unfold getJournalRun
  exact decodeEntries_error_of_corrupt uid _ h

/-- C7 witness: the amended theorem applied to a two-record store whose
first record is corrupt. -/
theorem c7_corrupt_record_witness :
    (∃ kv ∈ prefixIter
        [(lit "entry.u.2024-03-01.100", []),
         (lit "entry.u.2024-03-01.200",
          encodeEntry ⟨lit "porridge with honey and salt", 200, 1, lit "g", 100, 10, 5, 3⟩)]
        (entryPref (lit "u")), decodeEntry kv.2 = none) ∧
    getJournalRun
        [(lit "entry.u.2024-03-01.100", []),
         (lit "entry.u.2024-03-01.200",
          encodeEntry ⟨lit "porridge with honey and salt", 200, 1, lit "g", 100, 10, 5, 3⟩)]
        (lit "u")
      = .error .corrupt :=
  ⟨by decide,
   c7_corrupt_record_aborts_scan
     [(lit "entry.u.2024-03-01.100", []),
      (lit "entry.u.2024-03-01.200",
       encodeEntry ⟨lit "porridge with honey and salt", 200, 1, lit "g", 100, 10, 5, 3⟩)]
     (lit "u") (by decide)⟩

/-! ### C8 — serialization round-trip -/

theorem escapeChar_eq_of_plain {c : Char} (h : needsEscape c = false) :
    escapeChar c = [c] := by
  unfold escapeChar
  split_ifs with h1 h2 h3 h4 h5 h6 h7 h8
  · subst h1; exact absurd h (by decide)
  · subst h2; exact absurd h (by decide)
  · subst h3; exact absurd h (by decide)
  · subst h4; exact absurd h (by decide)
  · subst h5; exact absurd h (by decide)
  · subst h6; exact absurd h (by decide)
  · subst h7; exact absurd h (by decide)
  · simp only [needsEscape, Bool.or_eq_false_iff, decide_eq_false_iff_not] at h
    exact absurd h8 h.2
  · rfl

theorem escapeChars_eq_of_escFree {l : List Char} (h : escFree l) :
    escapeChars l = l := by
  induction l with
  | nil => rfl
  | cons c rest ih =>
    unfold escapeChars at ih ⊢
    rw [List.flatMap_cons, escapeChar_eq_of_plain (h c (List.mem_cons_self c rest)),
      ih fun x hx => h x (List.mem_cons_of_mem c hx)]
    rfl

theorem escFree_no_backslash {l : List Char} (h : escFree l) : '\\' ∉ l :=
  fun hm => absurd (h _ hm) (by decide)

theorem decodeUser_encodeUser (r : UserRec) (hv : validUserRec r)
    (h1 : escFree r.image) (h2 : escFree r.display_name) :
    decodeUser (encodeUser r) = some r := by
  obtain ⟨hb1, hb2, hb3, hb4⟩ := hv
  unfold decodeUser encodeUser
  simp only [objLookup, decodeStr, decodeU64,
    escapeChars_eq_of_escFree h1, escapeChars_eq_of_escFree h2]
  norm_num at hb1 hb2 hb3 hb4
  simp [escFree_no_backslash h1, escFree_no_backslash h2, hb1, hb2, hb3, hb4]

theorem decodeEntry_encodeEntry (e : EntryRec) (hv : validEntryRec e)
    (h1 : escFree e.text) (h2 : escFree e.qty_units) :
    decodeEntry (encodeEntry e) = some e := by
  obtain ⟨hb1, hb2, hb3, hb4, hb5⟩ := hv
  unfold decodeEntry encodeEntry
  simp only [objLookup, decodeStr, decodeU64, decodeU128, decodeF64,
    escapeChars_eq_of_escFree h1, escapeChars_eq_of_escFree h2]
  norm_num at hb1 hb2 hb3 hb4 hb5
  simp [escFree_no_backslash h1, escFree_no_backslash h2, hb1, hb2, hb3, hb4, hb5]

/-- C8 — the claim is false on the code: a valid user record whose `image`
string contains a double quote serializes with an escape sequence, and
deserializing the borrowed `&'a str` field then fails (serde_json hands the
visitor a transient, unescaped string, which the `&str` impl rejects), so
`decode(encode(x)) = x` does not hold for all valid records. -/
theorem c8_counter_escaped_string_fails :
    validUserRec ⟨lit "a\x22b", lit "al", 1, 2, 3, 4⟩ ∧
    decodeUser (encodeUser ⟨lit "a\x22b", lit "al", 1, 2, 3, 4⟩) = none := by
  constructor
  · decide
  · rfl

/-- C8 (amended) — the field-name-keyed serialization round-trips exactly
for every valid `UserDbRecord` and `JournalEntryDbRecord` whose string
fields are free of JSON-escaped characters (double quote, backslash,
control characters); a record with an escaped string field fails to decode,
because the borrowed `&str` fields reject strings with escape sequences. -/
theorem c8_roundtrip_escape_free :
    (∀ r : UserRec, validUserRec r → escFree r.image → escFree r.display_name →
      decodeUser (encodeUser r) = some r) ∧
    (∀ e : EntryRec, validEntryRec e → escFree e.text → escFree e.qty_units →
      decodeEntry (encodeEntry e) = some e) :=
  ⟨decodeUser_encodeUser, decodeEntry_encodeEntry⟩

/-- C8 witness: the amended theorem applied to a concrete user record and a
concrete journal entry. -/
theorem c8_roundtrip_witness :
    validUserRec ⟨lit "pic.png", lit "Alice", 2000, 250, 166, 44⟩ ∧
    decodeUser (encodeUser ⟨lit "pic.png", lit "Alice", 2000, 250, 166, 44⟩)
      = some ⟨lit "pic.png", lit "Alice", 2000, 250, 166, 44⟩ ∧
    validEntryRec ⟨lit "two eggs", 1700000000000, 2, lit "pcs", 160, 1, 10, 12⟩ ∧
    decodeEntry (encodeEntry ⟨lit "two eggs", 1700000000000, 2, lit "pcs", 160, 1, 10, 12⟩)
      = some ⟨lit "two eggs", 1700000000000, 2, lit "pcs", 160, 1, 10, 12⟩ :=
  ⟨by decide,
   c8_roundtrip_escape_free.1 ⟨lit "pic.png", lit "Alice", 2000, 250, 166, 44⟩
     (by decide) (by decide) (by decide),
   by decide,
   c8_roundtrip_escape_free.2 ⟨lit "two eggs", 1700000000000, 2, lit "pcs", 160, 1, 10, 12⟩
     (by decide) (by decide) (by decide)⟩

/-! ### C9 — scan order of journal entries -/

theorem natDec_small {n : Nat} (h : n < 10) : natDec n = [decDigit n] := by
  rw [natDec_unfold, if_pos h]

theorem natDec_big {n : Nat} (h : ¬ n < 10) :
    natDec n = natDec (n / 10) ++ [decDigit (n % 10)] := by
  rw [natDec_unfold, if_neg h]

theorem natDec_length_pos (n : Nat) : 0 < (natDec n).length := by
  rw [natDec_unfold]
  split <;> simp

theorem decDigit_lt {m n : Nat} (hmn : m < n) (hn : n < 10) :
    decDigit m < decDigit n := by
  interval_cases n <;> interval_cases m <;> decide

theorem lexAppendLeft {α} {r : α → α → Prop} (P : List α) {a b : List α}
    (h : List.Lex r a b) : List.Lex r (P ++ a) (P ++ b) := by
  induction P with
  | nil => exact h
  | cons x xs ih => exact List.Lex.cons ih

theorem lexAppendPairs {α} {r : α → α → Prop} {a b : List α}
    (h : List.Lex r a b) :
    ∀ {x y : List α}, a.length = b.length → List.Lex r (a ++ x) (b ++ y) := by
  induction h with
  | nil => intro x y hlen; simp at hlen
  | cons h ih => intro x y hlen; exact List.Lex.cons (ih (by simpa using hlen))
  | rel h => intro x y _; exact List.Lex.rel h

theorem natDec_lex :
    ∀ n m, m < n → (natDec m).length = (natDec n).length →
      List.Lex (· < ·) (natDec m) (natDec n) := by
  intro n
  induction n using Nat.strong_induction_on with
  | _ n ih =>
    intro m hmn hlen
    by_cases hn : n < 10
    · have hm : m < 10 := by omega
      rw [natDec_small hm, natDec_small hn]
      exact List.Lex.rel (decDigit_lt hmn hn)
    · by_cases hm : m < 10
      · rw [natDec_small hm, natDec_big hn] at hlen
        simp only [List.length_append, List.length_cons, List.length_nil] at hlen
        have := natDec_length_pos (n / 10)
        omega
      · rw [natDec_big hm, natDec_big hn] at hlen ⊢
        have hlen' : (natDec (m / 10)).length = (natDec (n / 10)).length := by
          simp only [List.length_append, List.length_cons, List.length_nil] at hlen
          omega
        have hdivle : m / 10 ≤ n / 10 := Nat.div_le_div_right (by omega)
        rcases lt_or_eq_of_le hdivle with hdiv | hdiv
        · exact lexAppendPairs
            (ih (n / 10) (Nat.div_lt_self (by omega) (by omega)) (m / 10) hdiv hlen')
            hlen'
        · rw [hdiv]
          apply lexAppendLeft
          exact List.Lex.rel (decDigit_lt (by omega) (Nat.mod_lt n (by omega)))

theorem entryKey_eq (u d : List Char) (ts : Nat) :
    entryKey u d ts = entryPref u ++ (d ++ (lit "." ++ natDec ts)) := by
  simp [entryKey, entryPref, List.append_assoc]

theorem entryPrefLen_eq (u : List Char) : entryPrefLen u = (entryPref u).length := by
  simp only [entryPrefLen, entryPref, List.length_append]
  rw [show (lit "entry..").length = 7 from rfl, show (lit "entry.").length = 6 from rfl,
    show (lit ".").length = 1 from rfl]
  omega

theorem entryKey_drop (u d : List Char) (ts : Nat) :
    (entryKey u d ts).drop (entryPrefLen u) = d ++ (lit "." ++ natDec ts) := by
  rw [entryKey_eq, entryPrefLen_eq]
  exact List.drop_left _ _

/-- C9 — the claim is false on the code: entry-key timestamps are written as
unpadded decimal (`u128` `Display`), so lexicographic key order disagrees
with numeric timestamp order across a digit-count boundary.  With two
entries for the same user and date at timestamps 999 and 1000, the scan
yields the timestamp-1000 entry *before* the timestamp-999 entry — key
order, but not chronological order. -/
theorem c9_counter_digit_boundary :
    getJournalRun
        [(lit "entry.u.2024-03-01.1000",
          encodeEntry ⟨lit "second breakfast today", 1000, 1, lit "g", 2, 3, 4, 5⟩),
         (lit "entry.u.2024-03-01.999",
          encodeEntry ⟨lit "breakfast eaten early", 999, 1, lit "g", 2, 3, 4, 5⟩)]
        (lit "u")
      = .ok [(lit "2024-03-01.1000",
              ⟨lit "second breakfast today", 1000, 1, lit "g", 2, 3, 4, 5⟩),
             (lit "2024-03-01.999",
              ⟨lit "breakfast eaten early", 999, 1, lit "g", 2, 3, 4, 5⟩)] ∧
    999 < 1000 := by
  constructor
  · rfl
  · decide

/-- C9 (amended) — for a user with journal entries on dates `d1 < d2`
(zero-padded ISO form, equal length) and timestamps `t1 < t2` within `d1`,
`list_journal_entries` yields them in key order, which is chronological —
the `d1` entries in timestamp order before the `d2` entry — provided the
decimal representations of the two same-date timestamps have equal length
(timestamps are not zero-padded, so chronological order fails across a
digit-count boundary such as 999 versus 1000; all epoch-millisecond values
between 2001 and 2286 have 13 digits). -/
theorem c9_scan_chronological (u d1 d2 : List Char) (t1 t2 t3 : Nat)
    (v1 v2 v3 : JObj) (r1 r2 r3 : EntryRec)
    (hdlen : d1.length = d2.length) (hdlex : List.Lex (· < ·) d1 d2)
    (ht : t1 < t2) (htlen : (natDec t1).length = (natDec t2).length)
    (hv1 : decodeEntry v1 = some r1) (hv2 : decodeEntry v2 = some r2)
    (hv3 : decodeEntry v3 = some r3) :
    getJournalRun
        (dbPut (dbPut (dbPut [] (entryKey u d2 t3) v3) (entryKey u d1 t2) v2)
          (entryKey u d1 t1) v1)
        u
      = .ok [(d1 ++ (lit "." ++ natDec t1), r1),
             (d1 ++ (lit "." ++ natDec t2), r2),
             (d2 ++ (lit "." ++ natDec t3), r3)] := by
  have h1112 : keyLt (entryKey u d1 t1) (entryKey u d1 t2) := by
    rw [entryKey_eq, entryKey_eq]
    exact lexAppendLeft _ (lexAppendLeft d1 (lexAppendLeft (lit ".")
      (natDec_lex t2 t1 ht htlen)))
  have h122 : keyLt (entryKey u d1 t2) (entryKey u d2 t3) := by
    rw [entryKey_eq, entryKey_eq]
    exact lexAppendLeft _ (lexAppendPairs hdlex hdlen)
  have hs : dbPut (dbPut (dbPut [] (entryKey u d2 t3) v3) (entryKey u d1 t2) v2)
        (entryKey u d1 t1) v1
      = [(entryKey u d1 t1, v1), (entryKey u d1 t2, v2), (entryKey u d2 t3, v3)] := by
    rw [show dbPut ([] : Store) (entryKey u d2 t3) v3 = [(entryKey u d2 t3, v3)]
        from rfl]
    have e2 : dbPut [(entryKey u d2 t3, v3)] (entryKey u d1 t2) v2
        = [(entryKey u d1 t2, v2), (entryKey u d2 t3, v3)] := by
      simp only [dbPut]
      rw [if_pos h122]
    rw [e2]
    simp only [dbPut]
    rw [if_pos h1112]
  have hpre : ∀ d ts, (entryPref u).isPrefixOf (entryKey u d ts) = true := by
    intro d ts
    rw [entryKey_eq]
    exact isPrefixOf_append_self _ _
  unfold getJournalRun
  rw [hs]
  have hscan : prefixIter
      [(entryKey u d1 t1, v1), (entryKey u d1 t2, v2), (entryKey u d2 t3, v3)]
      (entryPref u)
      = [(entryKey u d1 t1, v1), (entryKey u d1 t2, v2), (entryKey u d2 t3, v3)] := by
    simp [prefixIter, List.filter, hpre]
  rw [hscan]
  simp only [decodeEntries, hv1, hv2, hv3, entryKey_drop]

/-- C9 witness: the amended theorem applied to two dates in March 2024 and
equal-width timestamps. -/
theorem c9_scan_witness :
    ((lit "2024-03-01").length = (lit "2024-03-02").length) ∧
    List.Lex (· < ·) (lit "2024-03-01") (lit "2024-03-02") ∧
    (1000 < 1001) ∧
    ((natDec 1000).length = (natDec 1001).length) ∧
    getJournalRun
        (dbPut (dbPut (dbPut []
            (entryKey (lit "u") (lit "2024-03-02") 1000)
            (encodeEntry ⟨lit "late night second dinner", 1000, 1, lit "g", 2, 3, 4, 5⟩))
          (entryKey (lit "u") (lit "2024-03-01") 1001)
          (encodeEntry ⟨lit "dinner with family meal", 1001, 1, lit "g", 2, 3, 4, 5⟩))
          (entryKey (lit "u") (lit "2024-03-01") 1000)
          (encodeEntry ⟨lit "lunch with more butter", 1000, 1, lit "g", 2, 3, 4, 5⟩))
        (lit "u")
      = .ok [(lit "2024-03-01" ++ (lit "." ++ natDec 1000),
              ⟨lit "lunch with more butter", 1000, 1, lit "g", 2, 3, 4, 5⟩),
             (lit "2024-03-01" ++ (lit "." ++ natDec 1001),
              ⟨lit "dinner with family meal", 1001, 1, lit "g", 2, 3, 4, 5⟩),
             (lit "2024-03-02" ++ (lit "." ++ natDec 1000),
              ⟨lit "late night second dinner", 1000, 1, lit "g", 2, 3, 4, 5⟩)] :=
  ⟨by decide, by decide, by decide, by decide,
   c9_scan_chronological (lit "u") (lit "2024-03-01") (lit "2024-03-02")
     1000 1001 1000 _ _ _ _ _ _
     (by decide) (by decide) (by decide) (by decide) rfl rfl rfl⟩

/-! ### C10 — `list_users` prefix correctness -/

theorem userPref_split {k : Key} (h : (lit "user.").isPrefixOf k = true) :
    k = lit "user." ++ k.drop 5 := by
  obtain ⟨t, ht⟩ := List.isPrefixOf_iff_prefix.mp h
  subst ht
  rw [show (5 : Nat) = (lit "user.").length from rfl, List.drop_left]

theorem lexAppendLeftInv (P : List Char) {a b : List Char}
    (h : List.Lex (· < ·) (P ++ a) (P ++ b)) : List.Lex (· < ·) a b := by
  induction P with
  | nil => exact h
  | cons x xs ih => exact ih (List.Lex.cons_iff.mp h)

theorem userPref_false_of_head {c : Char} (k : List Char) (h : c ≠ 'u') :
    (lit "user.").isPrefixOf (c :: k) = false := by
  have hb : ('u' == c) = false := beq_eq_false_iff_ne.mpr fun he => h he.symm
  rw [show lit "user." = 'u' :: lit "ser." from rfl]
  simp [List.isPrefixOf, hb]

theorem head_of_entryPref {c : Char} {k : List Char}
    (h : (lit "entry.").isPrefixOf (c :: k) = true) : c = 'e' := by
  rw [show lit "entry." = 'e' :: lit "ntry." from rfl] at h
  simp only [List.isPrefixOf, Bool.and_eq_true, beq_iff_eq] at h
  exact h.1.symm

theorem head_of_foodPref {c : Char} {k : List Char}
    (h : (lit "food.").isPrefixOf (c :: k) = true) : c = 'f' := by
  rw [show lit "food." = 'f' :: lit "ood." from rfl] at h
  simp only [List.isPrefixOf, Bool.and_eq_true, beq_iff_eq] at h
  exact h.1.symm

theorem decodeUsers_all_ok (l : Store)
    (h : ∀ kv ∈ l, (decodeUser kv.2).isSome = true) :
    decodeUsers l
      = .ok (l.map fun kv => (kv.1.drop 5, (decodeUser kv.2).getD default)) := by
  induction l with
  | nil => rfl
  | cons kv rest ih =>
    obtain ⟨k, v⟩ := kv
    obtain ⟨r, hr⟩ := Option.isSome_iff_exists.mp
      (h (k, v) (List.mem_cons_self _ _))
    have hrest := ih fun kv hm => h kv (List.mem_cons_of_mem _ hm)
    simp only [decodeUsers, hr, hrest, List.map_cons, Option.getD_some]

/-- C10 — the claim is false on the code: with a store containing all three
key families where the (system-written) user record's `display_name`
contains a double quote, `get_users` aborts with a decode error — the
borrowed `&str` field rejects the escaped string — instead of returning the
set of `user.`-prefixed records. -/
theorem c10_counter_escaped_user_aborts :
    getUsersRun
        [(lit "entry.alice.2024-03-01.999",
          encodeEntry ⟨lit "bread and butter now", 999, 1, lit "g", 2, 3, 4, 5⟩),
         (lit "food.bread and butter",
          encodeEntry ⟨lit "bread and butter now", 999, 1, lit "g", 2, 3, 4, 5⟩),
         (userKey (lit "alice"), encodeUser ⟨lit "pic.png", lit "say \x22hi\x22", 1, 2, 3, 4⟩)]
      = .error .corrupt := by
  rfl

/-- C10 (amended) — for any key-sorted store containing a mix of the three
key families, provided every `user.`-prefixed record decodes (its string
fields are free of JSON escapes), `list_users` returns exactly the records
whose key starts with `"user."` — journal-entry (`entry.`) and recall-index
(`food.`) keys never match that prefix — each paired with the user name
recovered as the key minus the five-character `"user."` prefix, in store
key order, hence ordered lexicographically by user id. -/
theorem c10_list_users_prefix_correct (store : Store)
    (hs : KSorted store)
    (hdec : ∀ kv ∈ store, (lit "user.").isPrefixOf kv.1 = true →
      (decodeUser kv.2).isSome = true) :
    getUsersRun store
      = .ok ((store.filter fun kv => (lit "user.").isPrefixOf kv.1).map
          fun kv => (kv.1.drop 5, (decodeUser kv.2).getD default)) ∧
    (∀ kv ∈ store,
      ((lit "entry.").isPrefixOf kv.1 = true ∨ (lit "food.").isPrefixOf kv.1 = true) →
      (lit "user.").isPrefixOf kv.1 = false) ∧
    ((store.filter fun kv => (lit "user.").isPrefixOf kv.1).map
        fun kv => (kv.1.drop 5, (decodeUser kv.2).getD default)).Pairwise
      fun a b => List.Lex (· < ·) a.1 b.1 := by
  refine ⟨?_, ?_, ?_⟩
  · unfold getUsersRun prefixIter
    exact decodeUsers_all_ok _ fun kv hm =>
      hdec kv (List.mem_filter.mp hm).1 (List.mem_filter.mp hm).2
  · intro kv _ hcase
    rcases hk : kv.1 with _ | ⟨c, rest⟩
    · rcases hcase with h | h <;> rw [hk] at h <;>
        simp [show lit "entry." = 'e' :: lit "ntry." from rfl,
          show lit "food." = 'f' :: lit "ood." from rfl, List.isPrefixOf] at h
    · rcases hcase with h | h
      · rw [hk] at h
        exact userPref_false_of_head rest (by rw [head_of_entryPref h]; decide)
      · rw [hk] at h
        exact userPref_false_of_head rest (by rw [head_of_foodPref h]; decide)
  · rw [List.pairwise_map]
    have hfilter : (store.filter fun kv => (lit "user.").isPrefixOf kv.1).Pairwise
        fun a b => keyLt a.1 b.1 := hs.filter _
    refine hfilter.imp_of_mem ?_
    intro a b ha hb hab
    have hpa : (lit "user.").isPrefixOf a.1 = true := (List.mem_filter.mp ha).2
    have hpb : (lit "user.").isPrefixOf b.1 = true := (List.mem_filter.mp hb).2
    have hab' : keyLt (lit "user." ++ a.1.drop 5) (lit "user." ++ b.1.drop 5) := by
      rw [← userPref_split hpa, ← userPref_split hpb]
      exact hab
    exact lexAppendLeftInv _ hab'

/-- C10 witness: the amended theorem applied to a sorted store holding one
entry record, one recall-index record and two decodable user records. -/
theorem c10_list_users_witness :
    KSorted
      [(lit "entry.alice.2024-03-01.999",
        encodeEntry ⟨lit "bread and butter now", 999, 1, lit "g", 2, 3, 4, 5⟩),
       (lit "food.bread and butter",
        encodeEntry ⟨lit "bread and butter now", 999, 1, lit "g", 2, 3, 4, 5⟩),
       (lit "user.alice", encodeUser ⟨lit "a.png", lit "Alice", 1, 2, 3, 4⟩),
       (lit "user.bob", encodeUser ⟨lit "b.png", lit "Bob", 5, 6, 7, 8⟩)] ∧
    getUsersRun
      [(lit "entry.alice.2024-03-01.999",
        encodeEntry ⟨lit "bread and butter now", 999, 1, lit "g", 2, 3, 4, 5⟩),
       (lit "food.bread and butter",
        encodeEntry ⟨lit "bread and butter now", 999, 1, lit "g", 2, 3, 4, 5⟩),
       (lit "user.alice", encodeUser ⟨lit "a.png", lit "Alice", 1, 2, 3, 4⟩),
       (lit "user.bob", encodeUser ⟨lit "b.png", lit "Bob", 5, 6, 7, 8⟩)]
      = .ok [(lit "alice", ⟨lit "a.png", lit "Alice", 1, 2, 3, 4⟩),
             (lit "bob", ⟨lit "b.png", lit "Bob", 5, 6, 7, 8⟩)] := by
  constructor
  · decide
  · rw [(c10_list_users_prefix_correct
      [(lit "entry.alice.2024-03-01.999",
        encodeEntry ⟨lit "bread and butter now", 999, 1, lit "g", 2, 3, 4, 5⟩),
       (lit "food.bread and butter",
        encodeEntry ⟨lit "bread and butter now", 999, 1, lit "g", 2, 3, 4, 5⟩),
       (lit "user.alice", encodeUser ⟨lit "a.png", lit "Alice", 1, 2, 3, 4⟩),
       (lit "user.bob", encodeUser ⟨lit "b.png", lit "Bob", 5, 6, 7, 8⟩)]
      (by decide) (by decide)).1]
    rfl

/-! ### C1 — the rollover at the store level

The claim is settled over the handler embedding `endDayRun`: the success
path (cursor read, ISO parse, `+27h`, find-and-replace rewrite, put, commit)
is verified end to end, and `N` successive requests against the store are
shown strictly increasing. -/

theorem digitVal_decDigit (k : Nat) (h : k < 10) :
    digitVal (decDigit k) = some k := by
  interval_cases k <;> decide

theorem decDigit_ne_dash (k : Nat) : decDigit k ≠ '-' := by
  unfold decDigit
  split <;> decide

theorem decDigit_ne_plus (k : Nat) : decDigit k ≠ '+' := by
  unfold decDigit
  split <;> decide

theorem decDigit_ne_backslash (k : Nat) : decDigit k ≠ '\\' := by
  unfold decDigit
  split <;> decide

theorem natDec_length_le :
    ∀ w n, 1 ≤ w → n < 10 ^ w → (natDec n).length ≤ w := by
  intro w
  induction w with
  | zero => intro n h1 _; omega
  | succ v ih =>
    intro n _ h2
    by_cases hn : n < 10
    · rw [natDec_small hn]
      simp
    · have hv1 : 1 ≤ v := by
        rcases Nat.eq_zero_or_pos v with h | h
        · subst h; simp at h2; omega
        · exact h
      rw [natDec_big hn]
      have hdiv : n / 10 < 10 ^ v := by
        rw [pow_succ] at h2
        exact (Nat.div_lt_iff_lt_mul (by omega)).mpr h2
      have := ih (n / 10) hv1 hdiv
      simp only [List.length_append, List.length_cons, List.length_nil]
      omega

theorem pad2_eq (m : Nat) (h : m < 100) :
    padZeros 2 (natDec m) = [decDigit (m / 10 % 10), decDigit (m % 10)] := by
  by_cases h1 : m < 10
  · rw [natDec_small h1, show m / 10 % 10 = 0 from by omega,
      show m % 10 = m from by omega]
    rfl
  · rw [natDec_big h1, natDec_small (show m / 10 < 10 from by omega),
      show m / 10 % 10 = m / 10 from by omega]
    rfl

theorem pad4_eq (y : Nat) (h : y < 10000) :
    padZeros 4 (natDec y)
      = [decDigit (y / 1000 % 10), decDigit (y / 100 % 10),
         decDigit (y / 10 % 10), decDigit (y % 10)] := by
  by_cases h1 : y < 10
  · rw [natDec_small h1, show y / 1000 % 10 = 0 from by omega,
      show y / 100 % 10 = 0 from by omega, show y / 10 % 10 = 0 from by omega,
      show y % 10 = y from by omega]
    rfl
  · by_cases h2 : y < 100
    · rw [natDec_big h1, natDec_small (show y / 10 < 10 from by omega),
        show y / 1000 % 10 = 0 from by omega, show y / 100 % 10 = 0 from by omega,
        show y / 10 % 10 = y / 10 from by omega]
      rfl
    · by_cases h3 : y < 1000
      · rw [natDec_big h1, natDec_big (show ¬ y / 10 < 10 from by omega),
          show y / 10 / 10 = y / 100 from by omega,
          natDec_small (show y / 100 < 10 from by omega),
          show y / 10 % 10 = y / 10 % 10 from rfl,
          show y / 1000 % 10 = 0 from by omega,
          show y / 100 % 10 = y / 100 from by omega]
        rfl
      · rw [natDec_big h1, natDec_big (show ¬ y / 10 < 10 from by omega),
          show y / 10 / 10 = y / 100 from by omega,
          natDec_big (show ¬ y / 100 < 10 from by omega),
          show y / 100 / 10 = y / 1000 from by omega,
          natDec_small (show y / 1000 < 10 from by omega),
          show y / 1000 % 10 = y / 1000 from by omega,
          show y / 100 % 10 = y / 100 % 10 from rfl]
        rfl

theorem padZeros_six (l : List Char) (h : l.length ≤ 4) :
    padZeros 6 l = '0' :: '0' :: padZeros 4 l := by
  unfold padZeros
  rw [show 6 - l.length = ((4 - l.length) + 1) + 1 from by omega,
    List.replicate_succ, List.replicate_succ]
  rfl

theorem pad6_eq (y : Nat) (h : y < 10000) :
    padZeros 6 (natDec y)
      = ['0', '0', decDigit (y / 1000 % 10), decDigit (y / 100 % 10),
         decDigit (y / 10 % 10), decDigit (y % 10)] := by
  have hlen : (natDec y).length ≤ 4 := by
    refine natDec_length_le 4 y (by omega) ?_
    have : (10 : Nat) ^ 4 = 10000 := by norm_num
    omega
  rw [padZeros_six _ hlen, pad4_eq y h]

theorem parseYmd_digits (y m d : Nat) (hy : y < 10000) (hm : m < 100)
    (hd : d < 100) :
    parseYmd
        (decDigit (y / 1000 % 10) :: decDigit (y / 100 % 10) ::
         decDigit (y / 10 % 10) :: decDigit (y % 10) :: '-' ::
         decDigit (m / 10 % 10) :: decDigit (m % 10) :: '-' ::
         decDigit (d / 10 % 10) :: decDigit (d % 10) :: [])
      = some (y, m, d) := by
  have e1 := digitVal_decDigit (y / 1000 % 10) (by omega)
  have e2 := digitVal_decDigit (y / 100 % 10) (by omega)
  have e3 := digitVal_decDigit (y / 10 % 10) (by omega)
  have e4 := digitVal_decDigit (y % 10) (by omega)
  have e5 := digitVal_decDigit (m / 10 % 10) (by omega)
  have e6 := digitVal_decDigit (m % 10) (by omega)
  have e7 := digitVal_decDigit (d / 10 % 10) (by omega)
  have e8 := digitVal_decDigit (d % 10) (by omega)
  simp only [parseYmd, and_self, if_true, e1, e2, e3, e4, e5, e6, e7, e8,
    Option.bind_eq_bind, Option.some_bind', Option.pure_def, Option.some.injEq,
    Prod.mk.injEq]
  omega

theorem parseYmd6_digits (y m d : Nat) (hy : y < 10000) (hm : m < 100)
    (hd : d < 100) :
    parseYmd6
        ('0' :: '0' :: decDigit (y / 1000 % 10) :: decDigit (y / 100 % 10) ::
         decDigit (y / 10 % 10) :: decDigit (y % 10) :: '-' ::
         decDigit (m / 10 % 10) :: decDigit (m % 10) :: '-' ::
         decDigit (d / 10 % 10) :: decDigit (d % 10) :: [])
      = some (y, m, d) := by
  have e0 : digitVal '0' = some 0 := rfl
  have e1 := digitVal_decDigit (y / 1000 % 10) (by omega)
  have e2 := digitVal_decDigit (y / 100 % 10) (by omega)
  have e3 := digitVal_decDigit (y / 10 % 10) (by omega)
  have e4 := digitVal_decDigit (y % 10) (by omega)
  have e5 := digitVal_decDigit (m / 10 % 10) (by omega)
  have e6 := digitVal_decDigit (m % 10) (by omega)
  have e7 := digitVal_decDigit (d / 10 % 10) (by omega)
  have e8 := digitVal_decDigit (d % 10) (by omega)
  simp only [parseYmd6, and_self, if_true, e0, e1, e2, e3, e4, e5, e6, e7, e8,
    Option.bind_eq_bind, Option.some_bind', Option.pure_def, Option.some.injEq,
    Prod.mk.injEq]
  omega

theorem validDate_fields {d : CivilDate} (hv : validDate d = true) :
    -9999 ≤ d.year ∧ d.year ≤ 9999 ∧ 1 ≤ d.month ∧ d.month ≤ 12 ∧
      1 ≤ d.day ∧ d.day ≤ 31 := by
  simp only [validDate, Bool.and_eq_true, decide_eq_true_eq] at hv
  obtain ⟨⟨⟨⟨⟨hy1, hy2⟩, hm1⟩, hm2⟩, hd1⟩, hd2⟩ := hv
  have := daysInMonth_le_31 d.year d.month
  exact ⟨hy1, hy2, hm1, hm2, hd1, by omega⟩

theorem parseISODate_dash (rest : List Char) :
    parseISODate ('-' :: rest)
      = match parseYmd6 rest with
        | some (y, m, dd) =>
          if validDate ⟨-(y : Int), m, dd⟩ then some ⟨-(y : Int), m, dd⟩
          else none
        | none => none := rfl

theorem parseISODate_plain (c : Char) (rest : List Char) (h1 : c ≠ '-')
    (h2 : c ≠ '+') :
    parseISODate (c :: rest)
      = match parseYmd (c :: rest) with
        | some (y, m, dd) =>
          if validDate ⟨(y : Int), m, dd⟩ then some ⟨(y : Int), m, dd⟩
          else none
        | none => none := by
  simp only [parseISODate]
  rw [if_neg h1, if_neg h2]

theorem parseISODate_dateToISO (d : CivilDate) (hv : validDate d = true) :
    parseISODate (dateToISO d) = some d := by
  obtain ⟨hy1, hy2, hm1, hm2, hd1, hd2⟩ := validDate_fields hv
  unfold dateToISO
  by_cases hy : d.year < 0
  · rw [if_pos hy, pad6_eq d.year.natAbs (by omega), pad2_eq d.month (by omega),
      pad2_eq d.day (by omega)]
    simp only [List.cons_append, List.nil_append]
    rw [parseISODate_dash, parseYmd6_digits d.year.natAbs d.month d.day
      (by omega) (by omega) (by omega)]
    have hde : (⟨-((d.year.natAbs : Nat) : Int), d.month, d.day⟩ : CivilDate)
        = d := by
      have hyr : -((d.year.natAbs : Nat) : Int) = d.year := by omega
      rw [hyr]
    show (if validDate ⟨-((d.year.natAbs : Nat) : Int), d.month, d.day⟩ = true
        then some (⟨-((d.year.natAbs : Nat) : Int), d.month, d.day⟩ : CivilDate)
        else none) = some d
    rw [hde, if_pos hv]
  · rw [if_neg hy, pad4_eq d.year.natAbs (by omega), pad2_eq d.month (by omega),
      pad2_eq d.day (by omega)]
    simp only [List.cons_append, List.nil_append]
    rw [parseISODate_plain _ _ (decDigit_ne_dash _) (decDigit_ne_plus _),
      parseYmd_digits d.year.natAbs d.month d.day (by omega) (by omega)
      (by omega)]
    have hde : (⟨((d.year.natAbs : Nat) : Int), d.month, d.day⟩ : CivilDate)
        = d := by
      have hyr : ((d.year.natAbs : Nat) : Int) = d.year := by omega
      rw [hyr]
    show (if validDate ⟨((d.year.natAbs : Nat) : Int), d.month, d.day⟩ = true
        then some (⟨((d.year.natAbs : Nat) : Int), d.month, d.day⟩ : CivilDate)
        else none) = some d
    rw [hde, if_pos hv]

theorem mem_natDec_digit (n : Nat) :
    ∀ c ∈ natDec n, ∃ k, k < 10 ∧ c = decDigit k := by
  induction n using Nat.strong_induction_on with
  | _ n ih =>
    intro c hc
    by_cases hn : n < 10
    · rw [natDec_small hn] at hc
      simp only [List.mem_singleton] at hc
      exact ⟨n, hn, hc⟩
    · rw [natDec_big hn] at hc
      rcases List.mem_append.mp hc with h | h
      · exact ih (n / 10) (Nat.div_lt_self (by omega) (by omega)) c h
      · simp only [List.mem_singleton] at h
        exact ⟨n % 10, Nat.mod_lt _ (by omega), h⟩

theorem padZeros_no_backslash (w n : Nat) : '\\' ∉ padZeros w (natDec n) := by
  intro hm
  unfold padZeros at hm
  rcases List.mem_append.mp hm with h | h
  · exact absurd (List.eq_of_mem_replicate h) (by decide)
  · obtain ⟨k, _, he⟩ := mem_natDec_digit n '\\' h
    exact decDigit_ne_backslash k he.symm

theorem dateToISO_no_backslash (d : CivilDate) : '\\' ∉ dateToISO d := by
  intro hm
  unfold dateToISO at hm
  split at hm <;>
    simp only [List.mem_cons, List.mem_append] at hm <;>
    casesm* _ ∨ _ <;>
    first
      | exact padZeros_no_backslash _ _ (by assumption)
      | simp_all

theorem dateToISO_ne_nil (d : CivilDate) : dateToISO d ≠ [] := by
  unfold dateToISO
  split
  · exact List.cons_ne_nil _ _
  · intro h
    exact List.cons_ne_nil _ _ (List.append_eq_nil.mp h).2

theorem contains_eq_false_of_nmem {l : List Char} {c : Char} (h : c ∉ l) :
    l.contains c = false := by
  by_contra hc
  have ht : l.contains c = true := by
    revert hc
    cases l.contains c <;> simp
  exact h (List.mem_of_elem_eq_true ht)

theorem replaceAll_whole (p r : List Char) (hp : p ≠ []) :
    replaceAll p r p = r := by
  cases p with
  | nil => exact absurd rfl hp
  | cons ph pt =>
    have hself : (ph :: pt).isPrefixOf (ph :: pt) = true := by
      have := isPrefixOf_append_self (ph :: pt) []
      rwa [List.append_nil] at this
    rw [replaceAll_cons, if_pos ⟨by simp, hself⟩,
      show ((ph :: pt).drop (ph :: pt).length) = [] from List.drop_length _,
      replaceAll_nil, List.append_nil]

theorem objLookup_objReplaceDate (name : String) (p r : List Char) :
    ∀ o : JObj,
      objLookup name (objReplaceDate p r o)
        = (objLookup name o).map fun v =>
            match v with
            | JVal.jstr esc => JVal.jstr (replaceAll p r esc)
            | v => v := by
  intro o
  induction o with
  | nil => rfl
  | cons kv rest ih =>
    obtain ⟨n, v⟩ := kv
    simp only [objReplaceDate, List.map_cons, objLookup]
    by_cases hn : n = name
    · rw [if_pos hn, if_pos hn]
      rfl
    · rw [if_neg hn, if_neg hn]
      simpa only [objReplaceDate] using ih

theorem objReplaceDate_cursor {obj : JObj} {D : CivilDate} (tom : List Char)
    (hfield : objLookup "current_date" obj = some (JVal.jstr (dateToISO D))) :
    objLookup "current_date" (objReplaceDate (dateToISO D) tom obj)
      = some (JVal.jstr tom) := by
  rw [objLookup_objReplaceDate, hfield]
  show some (JVal.jstr (replaceAll (dateToISO D) tom (dateToISO D)))
    = some (JVal.jstr tom)
  rw [replaceAll_whole _ _ (dateToISO_ne_nil D)]

theorem getCurrentDateM_state {store : Store} {uid : List Char} {obj : JObj}
    (X : CivilDate) (hrec : dbGet store (userKey uid) = some obj)
    (hfield : objLookup "current_date" obj = some (JVal.jstr (dateToISO X))) :
    getCurrentDateM store uid = .ok (dateToISO X) := by
  unfold getCurrentDateM
  rw [hrec]
  simp only [hfield]
  simp [decodeStr, dateToISO_no_backslash X]

theorem endDayRun_ok {store : Store} {uid : List Char} {obj : JObj}
    {D D' : CivilDate} (hrec : dbGet store (userKey uid) = some obj)
    (hfield : objLookup "current_date" obj = some (JVal.jstr (dateToISO D)))
    (hv : validDate D = true) (hstep : endDayDate D = some D') :
    endDayRun store uid
      = (dbPut store (userKey uid)
           (objReplaceDate (dateToISO D) (dateToISO D') obj),
         .ok (dateToISO D')) := by
  have hget := getCurrentDateM_state D hrec hfield
  unfold endDayRun
  simp only [hget, parseISODate_dateToISO D hv, hstep, hrec]

theorem endDayRun_panic {store : Store} {uid : List Char} {obj : JObj}
    {D : CivilDate} (hrec : dbGet store (userKey uid) = some obj)
    (hfield : objLookup "current_date" obj = some (JVal.jstr (dateToISO D)))
    (hv : validDate D = true) (hstep : endDayDate D = none) :
    endDayRun store uid = (store, .error .panicked) := by
  have hget := getCurrentDateM_state D hrec hfield
  unfold endDayRun
  simp only [hget, parseISODate_dateToISO D hv, hstep]

theorem endDayDate_some_valid {d d' : CivilDate} (h : endDayDate d = some d') :
    validDate d' = true := by
  unfold endDayDate at h
  split at h
  · cases h
    assumption
  · cases h

theorem iterEndDay_one (e : CivilDate) : iterEndDay 1 e = endDayDate e := by
  rw [iterEndDay_succ]
  cases endDayDate e <;> rfl

theorem iterEndDay_succ_back (n : Nat) (d : CivilDate) :
    iterEndDay (n + 1) d = (iterEndDay n d).bind endDayDate := by
  rw [iterEndDay_add n 1]
  cases iterEndDay n d with
  | none => rfl
  | some e => simp [iterEndDay_one]

/-- Simulation invariant for successive `end_day` requests: after `k` calls
the store holds a user record whose `current_date` is the canonical ISO form
of a valid date `Dk`; `Dk` tracks the pure iteration while it is defined,
and once a call has panicked the store (and hence the cursor) is frozen at
the date where `endDayDate` fails. -/
theorem endDayIter_state {store : Store} {uid : List Char} {obj : JObj}
    {D : CivilDate} (hrec : dbGet store (userKey uid) = some obj)
    (hfield : objLookup "current_date" obj = some (JVal.jstr (dateToISO D)))
    (hv : validDate D = true) :
    ∀ k, ∃ Dk objk, validDate Dk = true ∧
      dbGet (endDayIter k store uid) (userKey uid) = some objk ∧
      objLookup "current_date" objk = some (JVal.jstr (dateToISO Dk)) ∧
      (iterEndDay k D = some Dk ∨
        (iterEndDay k D = none ∧ endDayDate Dk = none)) := by
  intro k
  induction k with
  | zero => exact ⟨D, obj, hv, hrec, hfield, Or.inl rfl⟩
  | succ n ih =>
    obtain ⟨Dk, objk, hvk, hreck, hfieldk, hcase⟩ := ih
    rcases hstep : endDayDate Dk with _ | Dk1
    · refine ⟨Dk, objk, hvk, ?_, hfieldk, ?_⟩
      · show dbGet (endDayRun (endDayIter n store uid) uid).1 (userKey uid)
          = some objk
        rw [endDayRun_panic hreck hfieldk hvk hstep]
        exact hreck
      · refine Or.inr ⟨?_, hstep⟩
        rw [iterEndDay_succ_back]
        rcases hcase with hc | ⟨hc, _⟩
        · rw [hc]
          simp [hstep]
        · rw [hc]
          rfl
    · have hrun := endDayRun_ok hreck hfieldk hvk hstep
      refine ⟨Dk1, objReplaceDate (dateToISO Dk) (dateToISO Dk1) objk,
        endDayDate_some_valid hstep, ?_, ?_, ?_⟩
      · show dbGet (endDayRun (endDayIter n store uid) uid).1 (userKey uid)
          = some (objReplaceDate (dateToISO Dk) (dateToISO Dk1) objk)
        rw [hrun]
        exact dbGet_dbPut_self _ _ _
      · exact objReplaceDate_cursor (dateToISO Dk1) hfieldk
      · rcases hcase with hc | ⟨_, hsat⟩
        · refine Or.inl ?_
          rw [iterEndDay_succ_back, hc]
          simp [hstep]
        · rw [hsat] at hstep
          cases hstep

/-- A successful `end_day` request after `k` prior requests returns the
canonical ISO form of the `(k+1)`-st date of the pure rollover iteration. -/
theorem endDayRun_ret {store : Store} {uid : List Char} {obj : JObj}
    {D : CivilDate} (hrec : dbGet store (userKey uid) = some obj)
    (hfield : objLookup "current_date" obj = some (JVal.jstr (dateToISO D)))
    (hv : validDate D = true) :
    ∀ k sk, (endDayRun (endDayIter k store uid) uid).2 = .ok sk →
      ∃ Dk1, iterEndDay (k + 1) D = some Dk1 ∧ sk = dateToISO Dk1 ∧
        validDate Dk1 = true := by
  intro k sk hok
  obtain ⟨Dk, objk, hvk, hreck, hfieldk, hcase⟩ :=
    endDayIter_state hrec hfield hv k
  rcases hstep : endDayDate Dk with _ | Dk1
  · rw [endDayRun_panic hreck hfieldk hvk hstep] at hok
    simp at hok
  · rcases hcase with hc | ⟨_, hsat⟩
    · rw [endDayRun_ok hreck hfieldk hvk hstep] at hok
      refine ⟨Dk1, ?_, ?_, endDayDate_some_valid hstep⟩
      · rw [iterEndDay_succ_back, hc]
        simp [hstep]
      · exact (Except.ok.inj hok).symm
    · rw [hsat] at hstep
      cases hstep

/-- C1 (amended) — for every user whose stored `current_date` is (the ISO
form of) a valid calendar date `D` other than 9999-12-31 (the maximal date
jiff's `civil::Date` represents), `advance_day` commits a rewrite of the
stored record whose `current_date` becomes `D + 27 hours` — exactly the
following calendar date, strictly later and valid — and returns that date;
and over `N` successive `advance_day` requests against the store, the
returned dates are strictly increasing, so the cursor never regresses.  (At
`D` = 9999-12-31 the jiff `Add` impl panics instead, see the
counterexample.) -/
theorem c1_rollover_strictly_monotone (store : Store) (uid : List Char)
    (obj : JObj) (D : CivilDate)
    (hrec : dbGet store (userKey uid) = some obj)
    (hfield : objLookup "current_date" obj = some (JVal.jstr (dateToISO D)))
    (hv : validDate D = true) (hmax : D ≠ ⟨9999, 12, 31⟩) :
    endDayRun store uid
      = (dbPut store (userKey uid)
           (objReplaceDate (dateToISO D) (dateToISO (nextDay D)) obj),
         .ok (dateToISO (nextDay D))) ∧
    getCurrentDateM (endDayRun store uid).1 uid
      = .ok (dateToISO (nextDay D)) ∧
    dateLt D (nextDay D) ∧ validDate (nextDay D) = true ∧
    (∀ i j si sj Di Dj, i < j →
      (endDayRun (endDayIter i store uid) uid).2 = .ok si →
      (endDayRun (endDayIter j store uid) uid).2 = .ok sj →
      parseISODate si = some Di → parseISODate sj = some Dj →
      dateLt Di Dj) := by
  have hstep : endDayDate D = some (nextDay D) := endDayDate_eq hv hmax
  have hrun := endDayRun_ok hrec hfield hv hstep
  refine ⟨hrun, ?_, nextDay_dateLt D, nextDay_valid hv hmax, ?_⟩
  · rw [hrun]
    exact getCurrentDateM_state (nextDay D) (dbGet_dbPut_self _ _ _)
      (objReplaceDate_cursor (dateToISO (nextDay D)) hfield)
  · intro i j si sj Di Dj hij hoki hokj hpi hpj
    obtain ⟨Di', hci, hsi, hvi⟩ := endDayRun_ret hrec hfield hv i si hoki
    obtain ⟨Dj', hcj, hsj, hvj⟩ := endDayRun_ret hrec hfield hv j sj hokj
    rw [hsi, parseISODate_dateToISO Di' hvi] at hpi
    rw [hsj, parseISODate_dateToISO Dj' hvj] at hpj
    obtain rfl : Di' = Di := Option.some.inj hpi
    obtain rfl : Dj' = Dj := Option.some.inj hpj
    exact iterEndDay_strict_mono D (i + 1) (j + 1) _ _ (by omega) hci hcj

/-- C1 witness: the amended theorem applied to a one-user store whose cursor
is 2024-03-01; the request stores and returns 2024-03-02. -/
theorem c1_rollover_witness :
    dbGet [(userKey (lit "alice"),
        [("current_date", JVal.jstr (dateToISO ⟨2024, 3, 1⟩))])]
      (userKey (lit "alice"))
      = some [("current_date", JVal.jstr (dateToISO ⟨2024, 3, 1⟩))] ∧
    objLookup "current_date"
        [("current_date", JVal.jstr (dateToISO ⟨2024, 3, 1⟩))]
      = some (JVal.jstr (dateToISO ⟨2024, 3, 1⟩)) ∧
    validDate ⟨2024, 3, 1⟩ = true ∧
    (⟨2024, 3, 1⟩ : CivilDate) ≠ ⟨9999, 12, 31⟩ ∧
    endDayRun [(userKey (lit "alice"),
        [("current_date", JVal.jstr (dateToISO ⟨2024, 3, 1⟩))])] (lit "alice")
      = (dbPut [(userKey (lit "alice"),
            [("current_date", JVal.jstr (dateToISO ⟨2024, 3, 1⟩))])]
          (userKey (lit "alice"))
          (objReplaceDate (dateToISO ⟨2024, 3, 1⟩)
            (dateToISO (nextDay ⟨2024, 3, 1⟩))
            [("current_date", JVal.jstr (dateToISO ⟨2024, 3, 1⟩))]),
         .ok (dateToISO (nextDay ⟨2024, 3, 1⟩))) ∧
    getCurrentDateM
        (endDayRun [(userKey (lit "alice"),
            [("current_date", JVal.jstr (dateToISO ⟨2024, 3, 1⟩))])]
          (lit "alice")).1 (lit "alice")
      = .ok (dateToISO (nextDay ⟨2024, 3, 1⟩)) :=
  ⟨rfl, rfl, by decide, by decide,
   (c1_rollover_strictly_monotone
     [(userKey (lit "alice"),
       [("current_date", JVal.jstr (dateToISO ⟨2024, 3, 1⟩))])]
     (lit "alice") [("current_date", JVal.jstr (dateToISO ⟨2024, 3, 1⟩))]
     ⟨2024, 3, 1⟩ rfl rfl (by decide) (by decide)).1,
   (c1_rollover_strictly_monotone
     [(userKey (lit "alice"),
       [("current_date", JVal.jstr (dateToISO ⟨2024, 3, 1⟩))])]
     (lit "alice") [("current_date", JVal.jstr (dateToISO ⟨2024, 3, 1⟩))]
     ⟨2024, 3, 1⟩ rfl rfl (by decide) (by decide)).2.1⟩
